import Mathlib

/-!
Verification development for the sampling-based planners library:
`RRT` (src/lib/src/Planner/RRT/RRT.cpp) and `InformedRRTStar`
(src/lib/src/Planner/InformedRRTStar/InformedRRTStar.cpp).

Modelling conventions.

* `double` values are modelled as exact rationals (`ℚ`).
* `State::distanceFrom` (a Euclidean norm), the trigonometric
  displacement computed inside the far branch of `generateSteerNode`
  (`atan2` / `sin` / `cos`), and the `R * (log N / N) ^ (1/dim)`
  neighbour radius of `findNearNodes` involve irrational functions;
  they are kept abstract as the fields `dist`, `steerMove` and
  `nearRadius` of an environment record `Env`, so the theorems are
  quantified over them, with facts such as nonnegativity or symmetry
  of the distance as explicit hypotheses where a claim needs them.
* The segment-feasibility test `checkCollision` and the point
  classification `checkConstraintType(s) == NOENTRY` are abstracted
  into the boolean fields `collision` and `noentry` of `Env`
  (`RRT::checkCollision` samples a fixed-step sweep of
  `checkConstraintType` with floating-point accumulation,
  `InformedRRTStar` calls the external `constraint_->checkCollision`).
* Randomness: each executed iteration of a solve loop consumes one
  `Draw`, carrying the goal-bias coin `u` of `sample_restriction` and
  the sampled point `pt`.  The draw stream is an explicit list and a
  loop returns `none` if the finite stream is exhausted while the C++
  loop would keep drawing.  The informed-domain machinery of
  `InformedRRTStar::solve` (goal node indexes, best cost, SVD
  rotation, unit-ball sample, ellipsoid transform) influences only
  which point is drawn, so it is absorbed into the draw stream.
* Trees are lists of nodes and the `shared_ptr` parent links are list
  indices (`Option Nat`); this is faithful because every parent
  assigned by the source is an element of `node_list` (or null at the
  root) and `node_list` is append-only.
* The `std::numeric_limits<double>::max()` sentinels are modelled as
  `Option ℚ`, `none` being the sentinel.
* C++ exceptions are modelled with `Except PlanError`:
  `RRT::setGoalSamplingRate` throws `std::runtime_error` while
  `InformedRRTStar::setGoalSamplingRate` throws
  `std::invalid_argument`, hence two distinct error constructors.
* Out-of-range indexing (undefined behaviour in C++) is modelled by
  total lookups returning a default node.
-/

/-- A configuration-space state: the `vals` vector of `planner::State`. -/
abbrev State := List ℚ

/-- Abstract environment: the numeric and collaborator functions the two
planners consume.  `dist` is `State::distanceFrom`, `collision` the segment
feasibility check, `noentry` the `checkConstraintType == NOENTRY` test,
`steerMove` the trigonometric far-branch displacement of
`generateSteerNode`, and `nearRadius` the neighbour radius formula of
`findNearNodes` as a function of the node count. -/
structure Env where
  dist : State → State → ℚ
  collision : State → State → Bool
  noentry : State → Bool
  steerMove : State → State → ℚ → State
  nearRadius : Nat → ℚ

/-- Error kinds thrown by the configuration code: `std::invalid_argument`
and `std::runtime_error`. -/
inductive PlanError where
  | invalidArgument
  | runtimeError
  deriving DecidableEq

/-- `RRT::Node`: a state plus a nullable parent link (no cost field). -/
structure RNode where
  state : State
  parent : Option Nat
  deriving DecidableEq

/-- `InformedRRTStar::Node`: state, nullable parent link and cumulative
cost. -/
structure INode where
  state : State
  parent : Option Nat
  cost : ℚ
  deriving DecidableEq

/-- One iteration's worth of randomness: the `sample_restriction` coin `u`
and the point `pt` produced by the sampling branch (uniform or informed). -/
structure Draw where
  u : ℚ
  pt : State
  deriving DecidableEq

/-- Total lookup in an `RNode` tree (C++ indexing is undefined out of
range; we return a default node). -/
def rnodeAt (l : List RNode) (i : Nat) : RNode :=
  l.getD i ⟨[], none⟩

/-- Total lookup in an `INode` tree. -/
def inodeAt (l : List INode) (i : Nat) : INode :=
  l.getD i ⟨[], none, 0⟩

/-- `RRT::setGoalSamplingRate` (RRT.cpp lines 45-52): rates outside
`[0,1]` make it throw `std::runtime_error`; otherwise the rate is
stored. -/
def RRT.setGoalSamplingRate (rate : ℚ) : Except PlanError ℚ :=
  if 0 ≤ rate ∧ rate ≤ 1 then .ok rate else .error .runtimeError

/-- `RRT::RRT`: the constructor validates the rate by calling the
setter. -/
def RRT.construct (rate : ℚ) : Except PlanError ℚ :=
  RRT.setGoalSamplingRate rate

/-- `InformedRRTStar::setGoalSamplingRate` (InformedRRTStar.cpp lines
49-56): rates outside `[0,1]` make it throw `std::invalid_argument`;
otherwise the rate is stored. -/
def InformedRRTStar.setGoalSamplingRate (rate : ℚ) : Except PlanError ℚ :=
  if 0 ≤ rate ∧ rate ≤ 1 then .ok rate else .error .invalidArgument

/-- `InformedRRTStar::InformedRRTStar`: the constructor validates the rate
by calling the setter. -/
def InformedRRTStar.construct (rate : ℚ) : Except PlanError ℚ :=
  InformedRRTStar.setGoalSamplingRate rate

/-- Linear scan of `getNearestNodeIndex` (both planners): first index of
strictly minimal distance, the running minimum starting at the
`DBL_MAX` sentinel (`none`). -/
def nearestGo (env : Env) (t : State) : List State → Nat → Nat → Option ℚ → Nat
  | [], _, bi, _ => bi
  | s :: ss, i, bi, bd =>
    let dd := env.dist s t
    match bd with
    | none => nearestGo env t ss (i + 1) i (some dd)
    | some m =>
      if dd < m then nearestGo env t ss (i + 1) i (some dd)
      else nearestGo env t ss (i + 1) bi (some m)

/-- `RRT::getNearestNodeIndex` (RRT.cpp lines 138-151). -/
def RRT.getNearestNodeIndex (env : Env) (t : State) (l : List RNode) : Nat :=
  nearestGo env t (l.map (fun n => n.state)) 0 0 none

/-- `InformedRRTStar::getNearestNodeIndex` (InformedRRTStar.cpp lines
214-227). -/
def InformedRRTStar.getNearestNodeIndex (env : Env) (t : State) (l : List INode) : Nat :=
  nearestGo env t (l.map (fun n => n.state)) 0 0 none

/-- `RRT::generateSteerNode` (RRT.cpp lines 153-181): parent is the source
index; the state is the target when it is strictly closer than
`expand_dist`, else the source advanced by the trigonometric
decomposition (abstracted as `env.steerMove`). -/
def RRT.generateSteerNode (env : Env) (expand : ℚ) (src : RNode) (srcIdx : Nat)
    (dst : State) : RNode :=
  if env.dist src.state dst < expand then ⟨dst, some srcIdx⟩
  else ⟨env.steerMove src.state dst expand, some srcIdx⟩

/-- `InformedRRTStar::generateSteerNode` (InformedRRTStar.cpp lines
229-260): same state rule, and the cost of the source is incremented by
the actual distance in the near branch and by `expand_dist` in the far
branch. -/
def InformedRRTStar.generateSteerNode (env : Env) (expand : ℚ) (src : INode) (srcIdx : Nat)
    (dst : State) : INode :=
  if env.dist src.state dst < expand then
    ⟨dst, some srcIdx, src.cost + env.dist src.state dst⟩
  else
    ⟨env.steerMove src.state dst expand, some srcIdx, src.cost + expand⟩

/-- The sampling loop of `RRT::solve` (RRT.cpp lines 78-118).  Each list
element is one execution of the `while` body; `cnt` is `sampling_cnt`
(kept as an unbounded total, compared modulo `2^32` exactly as the
`uint32_t` register is).  A NOENTRY resample (`continue`) does not touch
the counter.  The result is `(success, node_list, sampling_cnt)`; `none`
means the explicit draw stream ran out while the loop was still
running. -/
def RRT.solveLoop (env : Env) (rate expand : ℚ) (goal : State) (maxN : Nat) :
    List Draw → List RNode → Nat → Option (Bool × List RNode × Nat)
  | [], _, _ => none
  | d :: ds, l, cnt =>
    if rate < d.u ∧ env.noentry d.pt = true then
      RRT.solveLoop env rate expand goal maxN ds l cnt
    else
      let target := if rate < d.u then d.pt else goal
      let ni := RRT.getNearestNodeIndex env target l
      let nn := RRT.generateSteerNode env expand (rnodeAt l ni) ni target
      if env.collision (rnodeAt l ni).state nn.state = true then
        let l2 := l ++ [nn]
        if env.dist nn.state goal ≤ expand then
          some (true, l2 ++ [⟨goal, some (l2.length - 1)⟩], cnt)
        else if (cnt + 1) % 2 ^ 32 = maxN % 2 ^ 32 then some (false, l2, cnt + 1)
        else RRT.solveLoop env rate expand goal maxN ds l2 (cnt + 1)
      else if (cnt + 1) % 2 ^ 32 = maxN % 2 ^ 32 then some (false, l, cnt + 1)
      else RRT.solveLoop env rate expand goal maxN ds l (cnt + 1)

/-- Path reconstruction: walk parent links from index `i` collecting
states goal-first (the C++ `while(true)` with `result_.insert(begin)`
reversed at the end).  `fuel` bounds the walk; the C++ loop would run
forever on a cyclic structure, which the fuel cut models. -/
def rwalkRev (l : List RNode) : Nat → Nat → List State
  | 0, _ => []
  | fuel + 1, i =>
    (rnodeAt l i).state ::
      (match (rnodeAt l i).parent with
       | none => []
       | some j => rwalkRev l fuel j)

/-- `RRT::solve` (RRT.cpp lines 58-136).  On success the result vector is
rebuilt from the terminal goal node; on failure the function returns
`false` *without clearing* `result_` (the `result_.clear()` at line 121
is only reached after the loop breaks), so the previous result is kept. -/
def RRT.solve (env : Env) (rate expand : ℚ) (maxN : Nat) (start goal : State)
    (draws : List Draw) (prevResult : List State) : Option (Bool × List State) :=
  match RRT.solveLoop env rate expand goal maxN draws [⟨start, none⟩] 0 with
  | none => none
  | some (true, L, _) => some (true, (rwalkRev L L.length (L.length - 1)).reverse)
  | some (false, _, _) => some (false, prevResult)

/-- `InformedRRTStar::findNearNodes` (InformedRRTStar.cpp lines 262-278):
all indices whose distance to the target is strictly below the radius
(abstracted as `env.nearRadius` of the node count); empty for an empty
tree. -/
def InformedRRTStar.findNearNodes (env : Env) (l : List INode) (target : INode) : List Nat :=
  if l.length = 0 then []
  else (List.range l.length).filter
    (fun i => env.dist (inodeAt l i).state target.state < env.nearRadius l.length)

/-- Guard `cost < min_cost` against an optional running minimum (`none`
is the `DBL_MAX` sentinel, which every cost beats). -/
def cLess (c : ℚ) : Option ℚ → Bool
  | none => true
  | some m => decide (c < m)

/-- The prospective cost of attaching the candidate `tgt` to near node
`i`: `node_list[i]->cost + target.state.distanceFrom(node_list[i]->state)`
(the `cost` local of `chooseParentNode`). -/
def cpCost (env : Env) (tgt : INode) (l : List INode) (i : Nat) : ℚ :=
  (inodeAt l i).cost + env.dist tgt.state (inodeAt l i).state

/-- The scan inside `InformedRRTStar::chooseParentNode`
(InformedRRTStar.cpp lines 283-294): the collision check is evaluated
lazily, only when the cost would improve the running minimum. -/
def cpLoop (env : Env) (tgt : INode) (l : List INode) :
    List Nat → Option Nat → Option ℚ → Option Nat × Option ℚ
  | [], mp, mc => (mp, mc)
  | i :: is, mp, mc =>
    if cLess (cpCost env tgt l i) mc then
      if env.collision tgt.state (inodeAt l i).state then
        cpLoop env tgt l is (some i) (some (cpCost env tgt l i))
      else cpLoop env tgt l is mp mc
    else cpLoop env tgt l is mp mc

/-- `InformedRRTStar::chooseParentNode` (InformedRRTStar.cpp lines
280-302): run the lazy scan starting from the candidate's own parent and
the sentinel; if any near node qualified, overwrite parent and cost. -/
def InformedRRTStar.chooseParentNode (env : Env) (tgt : INode) (l : List INode)
    (near : List Nat) : INode :=
  let r := cpLoop env tgt l near tgt.parent none
  match r.2 with
  | none => tgt
  | some c => { tgt with parent := r.1, cost := c }

/-- First-on-ties minimum-cost index of a list of tree indices, cost of
index `i` being `tree[i].cost + dist(candidate, tree[i])`.  Used by the
naive reference `chooseParentRef`. -/
def minCostIdx (env : Env) (tgt : INode) (l : List INode) : List Nat → Option (Nat × ℚ)
  | [] => none
  | i :: is =>
    match minCostIdx env tgt l is with
    | none => some (i, cpCost env tgt l i)
    | some (j, cj) =>
      if cpCost env tgt l i ≤ cj then some (i, cpCost env tgt l i) else some (j, cj)

/-- The near indices passing the candidate's collision check. -/
def passList (env : Env) (tgt : INode) (l : List INode) (near : List Nat) : List Nat :=
  near.filter (fun i => env.collision tgt.state (inodeAt l i).state)

/-- Naive reference for `chooseParentNode`: first filter all near nodes
by the collision check, then take the minimum-cost one (first index on
ties); if none qualifies the candidate is unchanged.  This definition
follows the claim's words, not the source, and is compared with the
source's lazy scan. -/
def InformedRRTStar.chooseParentRef (env : Env) (tgt : INode) (l : List INode)
    (near : List Nat) : INode :=
  match minCostIdx env tgt l (passList env tgt l near) with
  | none => tgt
  | some (i, c) => { tgt with parent := some i, cost := c }

/-- One iteration of the loop in `InformedRRTStar::rewireNearNodes`
(InformedRRTStar.cpp lines 304-317): `new_node` is `node_list.back()`;
near node `i` is re-parented onto it when that strictly lowers its
cost and the segment is feasible. -/
def rewireStep (env : Env) (l : List INode) (i : Nat) : List INode :=
  if i < l.length then
    let nw := inodeAt l (l.length - 1)
    let n := inodeAt l i
    let c := nw.cost + env.dist n.state nw.state
    if c < n.cost ∧ env.collision nw.state n.state = true then
      l.set i { n with parent := some (l.length - 1), cost := c }
    else l
  else l

/-- `InformedRRTStar::rewireNearNodes` (InformedRRTStar.cpp lines
304-317): the rewire loop over the near indices. -/
def InformedRRTStar.rewireNearNodes (env : Env) (l : List INode) (near : List Nat) :
    List INode :=
  near.foldl (rewireStep env) l

/-- Linear scan of `InformedRRTStar::getBestNodeIndex`
(InformedRRTStar.cpp lines 319-335): first strictly-minimal-cost index
among nodes within `radius` of the target; `none` is the C++ `-1`. -/
def bestGo (env : Env) (t : State) (radius : ℚ) :
    List INode → Nat → Option Nat → Option ℚ → Option Nat
  | [], _, bi, _ => bi
  | n :: ns, i, bi, bc =>
    if env.dist t n.state < radius then
      match bc with
      | none => bestGo env t radius ns (i + 1) (some i) (some n.cost)
      | some m =>
        if n.cost < m then bestGo env t radius ns (i + 1) (some i) (some n.cost)
        else bestGo env t radius ns (i + 1) bi (some m)
    else bestGo env t radius ns (i + 1) bi bc

/-- `InformedRRTStar::getBestNodeIndex`. -/
def InformedRRTStar.getBestNodeIndex (env : Env) (t : State) (radius : ℚ)
    (l : List INode) : Option Nat :=
  bestGo env t radius l 0 none none

/-- Path reconstruction for `InformedRRTStar::solve`: walk parent links
from index `i` collecting states best-node-first; `fuel` bounds the walk
(the C++ loop would run forever on a cyclic structure). -/
def iwalkRev (l : List INode) : Nat → Nat → List State
  | 0, _ => []
  | fuel + 1, i =>
    (inodeAt l i).state ::
      (match (inodeAt l i).parent with
       | none => []
       | some j => iwalkRev l fuel j)

/-- The `for` loop of `InformedRRTStar::solve` (InformedRRTStar.cpp lines
106-178): exactly `max_sampling_num` iterations with no early exit; a
NOENTRY resample (`continue`) still consumes its iteration.  Each
iteration consumes one draw; `none` means the draw stream ran out. -/
def InformedRRTStar.solveLoop (env : Env) (rate expand : ℚ) (goal : State) :
    Nat → List Draw → List INode → Option (List INode)
  | 0, _, l => some l
  | _ + 1, [], _ => none
  | fuel + 1, d :: ds, l =>
    if rate < d.u ∧ env.noentry d.pt = true then
      InformedRRTStar.solveLoop env rate expand goal fuel ds l
    else
      let target := if rate < d.u then d.pt else goal
      let ni := InformedRRTStar.getNearestNodeIndex env target l
      let nn := InformedRRTStar.generateSteerNode env expand (inodeAt l ni) ni target
      if env.collision (inodeAt l ni).state nn.state = true then
        let near := InformedRRTStar.findNearNodes env l nn
        let nn2 := InformedRRTStar.chooseParentNode env nn l near
        let l2 := l ++ [nn2]
        let l3 := InformedRRTStar.rewireNearNodes env l2 near
        InformedRRTStar.solveLoop env rate expand goal fuel ds l3
      else InformedRRTStar.solveLoop env rate expand goal fuel ds l

/-- `InformedRRTStar::solve` (InformedRRTStar.cpp lines 70-212).
`calcRotationToWorldFlame` throws `std::invalid_argument` when the start
and goal dimensions mismatch or are below 2 (lines 337-342).  After the
loop, `result_` is cleared, the best in-radius node is selected with
radius `expand_dist`, and on success `goal` is appended whenever the
best node's state differs from it, the parent chain states in front.
The result triple is `(success, result_, node_list_)`; on failure the
cleared (empty) result is returned. -/
def InformedRRTStar.solve (env : Env) (rate expand : ℚ) (maxN : Nat)
    (start goal : State) (draws : List Draw) :
    Except PlanError (Option (Bool × List State × List INode)) :=
  if start.length ≠ goal.length ∨ start.length < 2 then .error .invalidArgument
  else
    .ok <|
      (InformedRRTStar.solveLoop env rate expand goal maxN draws [⟨start, none, 0⟩]).map
        (fun l =>
          match InformedRRTStar.getBestNodeIndex env goal expand l with
          | none => (false, ([] : List State), l)
          | some b =>
            let chainPart := (iwalkRev l l.length b).reverse
            if (inodeAt l b).state = goal then (true, chainPart, l)
            else (true, chainPart ++ [goal], l))

/-- One parent-link step on an `INode` tree: the root (or any node with a
null parent) is a fixed point. -/
def pstepI (l : List INode) (i : Nat) : Nat :=
  match (inodeAt l i).parent with
  | none => i
  | some j => j

/-- Iterated parent-link steps. -/
def pIterI (l : List INode) : Nat → Nat → Nat
  | 0, i => i
  | k + 1, i => pIterI l k (pstepI l i)

/-! ### Concrete test environment used by the witnesses -/

/-- A computable stand-in metric (taxicab distance on rationals) used to
instantiate the abstract `dist` field in concrete runs; it is symmetric
and nonnegative like the Euclidean `State::distanceFrom`. -/
def qdist (a b : State) : ℚ :=
  (List.zipWith (fun x y => |x - y|) a b).sum

theorem qdist_nonneg : ∀ a b : State, 0 ≤ qdist a b := by
  intro a
  induction a with
  | nil => intro b; simp [qdist]
  | cons x xs ih =>
    intro b
    cases b with
    | nil => simp [qdist]
    | cons y ys =>
      have hx : (0 : ℚ) ≤ |x - y| := abs_nonneg _
      have hr := ih ys
      simp only [qdist, List.zipWith_cons_cons, List.sum_cons]
      exact add_nonneg hx hr

theorem qdist_symm : ∀ a b : State, qdist a b = qdist b a := by
  intro a
  induction a with
  | nil => intro b; cases b <;> simp [qdist]
  | cons x xs ih =>
    intro b
    cases b with
    | nil => simp [qdist]
    | cons y ys =>
      simp only [qdist, List.zipWith_cons_cons, List.sum_cons]
      rw [abs_sub_comm]
      exact congrArg (fun z => |y - x| + z) (ih ys)

/-- Everything-feasible test environment. -/
def envT : Env where
  dist := qdist
  collision := fun _ _ => true
  noentry := fun _ => false
  steerMove := fun _ d _ => d
  nearRadius := fun _ => 0

/-! ### C2: goal-sampling-rate validation -/

/-- C2 counterexample: for rate `3/2` the RRT setter fails with the
runtime-error kind (`std::runtime_error`), not the invalid-argument kind
the claim states, and the two error kinds are distinct. -/
theorem c2_counterexample :
    RRT.setGoalSamplingRate (3 / 2) = .error .runtimeError ∧
    (Except.error PlanError.runtimeError : Except PlanError ℚ)
      ≠ .error .invalidArgument := by
  constructor
  · simp [RRT.setGoalSamplingRate]
    norm_num
  · simp

/-- C2 (amended): every rate outside `[0,1]` makes both setters fail —
`InformedRRTStar` with `std::invalid_argument` but `RRT` with
`std::runtime_error` — and every rate in `[0,1]` is accepted and stored;
each constructor validates by calling its setter. -/
theorem c2_goal_sampling_rate (r : ℚ) :
    (¬(0 ≤ r ∧ r ≤ 1) →
      RRT.setGoalSamplingRate r = .error .runtimeError ∧
      InformedRRTStar.setGoalSamplingRate r = .error .invalidArgument) ∧
    ((0 ≤ r ∧ r ≤ 1) →
      RRT.setGoalSamplingRate r = .ok r ∧
      InformedRRTStar.setGoalSamplingRate r = .ok r) ∧
    RRT.construct r = RRT.setGoalSamplingRate r ∧
    InformedRRTStar.construct r = InformedRRTStar.setGoalSamplingRate r := by
  refine ⟨fun h => ?_, fun h => ?_, rfl, rfl⟩
  · simp [RRT.setGoalSamplingRate, InformedRRTStar.setGoalSamplingRate, h]
  · simp [RRT.setGoalSamplingRate, InformedRRTStar.setGoalSamplingRate, h]

/-- C2 witness: the amended theorem applied at rates `3/2` and `1/2`. -/
theorem c2_witness :
    (RRT.setGoalSamplingRate (3 / 2) = .error .runtimeError ∧
     InformedRRTStar.setGoalSamplingRate (3 / 2) = .error .invalidArgument) ∧
    (RRT.setGoalSamplingRate (1 / 2) = .ok (1 / 2) ∧
     InformedRRTStar.setGoalSamplingRate (1 / 2) = .ok (1 / 2)) :=
  ⟨(c2_goal_sampling_rate (3 / 2)).1 (by norm_num),
   (c2_goal_sampling_rate (1 / 2)).2.1 ⟨by norm_num, by norm_num⟩⟩

/-! ### C5: the steered node -/

/-- C5: for any source node, target state and expansion distance, the
steered node's parent is the source; when the target is strictly closer
than `expand_dist` its state is the target and (Informed variant, whose
nodes carry costs) its cost is `src.cost + dist`, otherwise the cost is
`src.cost + expand_dist`. -/
theorem c5_generate_steer_node (env : Env) (expand : ℚ) (src : INode)
    (rsrc : RNode) (srcIdx : Nat) (dst : State) :
    (env.dist src.state dst < expand →
      (InformedRRTStar.generateSteerNode env expand src srcIdx dst).state = dst ∧
      (InformedRRTStar.generateSteerNode env expand src srcIdx dst).cost
        = src.cost + env.dist src.state dst) ∧
    (¬ env.dist src.state dst < expand →
      (InformedRRTStar.generateSteerNode env expand src srcIdx dst).cost
        = src.cost + expand) ∧
    (InformedRRTStar.generateSteerNode env expand src srcIdx dst).parent = some srcIdx ∧
    (env.dist rsrc.state dst < expand →
      (RRT.generateSteerNode env expand rsrc srcIdx dst).state = dst) ∧
    (RRT.generateSteerNode env expand rsrc srcIdx dst).parent = some srcIdx := by
  refine ⟨fun h => ?_, fun h => ?_, ?_, fun h => ?_, ?_⟩
  · simp [InformedRRTStar.generateSteerNode, h]
  · simp [InformedRRTStar.generateSteerNode, h]
  · unfold InformedRRTStar.generateSteerNode
    split <;> rfl
  · simp [RRT.generateSteerNode, h]
  · unfold RRT.generateSteerNode
    split <;> rfl

/-- C5 witness: the steering theorem applied to a concrete near-branch
input (`dist = 1 < 2 = expand_dist`). -/
theorem c5_witness :
    (InformedRRTStar.generateSteerNode envT 2 ⟨[0, 0], none, 0⟩ 0 [1, 0]).state = [1, 0] ∧
    (InformedRRTStar.generateSteerNode envT 2 ⟨[0, 0], none, 0⟩ 0 [1, 0]).cost
      = 0 + envT.dist [0, 0] [1, 0] ∧
    (InformedRRTStar.generateSteerNode envT 2 ⟨[0, 0], none, 0⟩ 0 [1, 0]).parent = some 0 := by
  have h := c5_generate_steer_node envT 2 ⟨[0, 0], none, 0⟩ ⟨[0, 0], none⟩ 0 [1, 0]
  have hd : envT.dist [0, 0] [1, 0] < 2 := by
    norm_num [envT, qdist]
  exact ⟨(h.1 hd).1, (h.1 hd).2, h.2.2.1⟩

/-! ### Characterisation of the lazy parent-selection scan -/

/-- Near indices whose collision check passes and whose prospective cost
beats the bound `mc`. -/
def passBelow (env : Env) (tgt : INode) (l : List INode) (mc : Option ℚ)
    (near : List Nat) : List Nat :=
  near.filter
    (fun i => env.collision tgt.state (inodeAt l i).state
      && cLess (cpCost env tgt l i) mc)

theorem passBelow_none (env : Env) (tgt : INode) (l : List INode) (near : List Nat) :
    passBelow env tgt l none near = passList env tgt l near := by
  unfold passBelow passList
  refine List.filter_congr ?_
  intro i _
  simp [cLess]

theorem minCostIdx_ne_none (env : Env) (tgt : INode) (l : List INode) (i : Nat)
    (is : List Nat) : minCostIdx env tgt l (i :: is) ≠ none := by
  simp only [minCostIdx]
  split
  · simp
  · split <;> simp

theorem minCostIdx_eq_none (env : Env) (tgt : INode) (l : List INode) (L : List Nat)
    (h : minCostIdx env tgt l L = none) : L = [] := by
  cases L with
  | nil => rfl
  | cons i is => exact absurd h (minCostIdx_ne_none env tgt l i is)

theorem minCostIdx_spec (env : Env) (tgt : INode) (l : List INode) :
    ∀ (L : List Nat) (i : Nat) (c : ℚ), minCostIdx env tgt l L = some (i, c) →
      i ∈ L ∧ c = cpCost env tgt l i ∧ ∀ j ∈ L, c ≤ cpCost env tgt l j := by
  intro L
  induction L with
  | nil => intro i c h; exact absurd h (by simp [minCostIdx])
  | cons a as ih =>
    intro i c h
    cases hm : minCostIdx env tgt l as with
    | none =>
      simp only [minCostIdx, hm, Option.some.injEq, Prod.mk.injEq] at h
      obtain ⟨hi, hc⟩ := h
      have has : as = [] := minCostIdx_eq_none env tgt l as hm
      subst has hi hc
      refine ⟨List.mem_cons_self _ _, rfl, ?_⟩
      intro j hj
      simp at hj
      subst hj
      exact le_refl _
    | some p =>
      obtain ⟨j, cj⟩ := p
      obtain ⟨hjm, hcj, hmin⟩ := ih j cj hm
      simp only [minCostIdx, hm] at h
      split at h
      · next hle =>
        simp only [Option.some.injEq, Prod.mk.injEq] at h
        obtain ⟨hi, hc⟩ := h
        subst hi hc
        refine ⟨List.mem_cons_self _ _, rfl, ?_⟩
        intro k hk
        rcases List.mem_cons.mp hk with hk | hk
        · subst hk; exact le_refl _
        · exact le_trans hle (hmin k hk)
      · next hle =>
        simp only [Option.some.injEq, Prod.mk.injEq] at h
        obtain ⟨hi, hc⟩ := h
        subst hi hc
        refine ⟨List.mem_cons_of_mem _ hjm, hcj, ?_⟩
        intro k hk
        rcases List.mem_cons.mp hk with hk | hk
        · subst hk; exact le_of_lt (lt_of_not_le hle)
        · exact hmin k hk

theorem minCostIdx_filter_lt (env : Env) (tgt : INode) (l : List INode) (x : ℚ) :
    ∀ L : List Nat,
      minCostIdx env tgt l (L.filter (fun j => decide (cpCost env tgt l j < x))) =
        match minCostIdx env tgt l L with
        | none => none
        | some (j, m) => if m < x then some (j, m) else none := by
  intro L
  induction L with
  | nil => simp [minCostIdx]
  | cons a as ih =>
    by_cases ha : cpCost env tgt l a < x
    · rw [List.filter_cons_of_pos (by simpa using ha)]
      simp only [minCostIdx, ih]
      cases hm : minCostIdx env tgt l as with
      | none => simp [ha]
      | some p =>
        obtain ⟨j, m⟩ := p
        by_cases hmx : m < x
        · by_cases hc : cpCost env tgt l a ≤ m
          · simp [hmx, hc, ha]
          · simp [hmx, hc, ha]
        · have hc : cpCost env tgt l a ≤ m := le_trans (le_of_lt ha) (not_lt.mp hmx)
          simp [hmx, hc, ha]
    · rw [List.filter_cons_of_neg (by simpa using ha)]
      rw [ih]
      simp only [minCostIdx]
      cases hm : minCostIdx env tgt l as with
      | none => simp [ha]
      | some p =>
        obtain ⟨j, m⟩ := p
        by_cases hc : cpCost env tgt l a ≤ m
        · have hmx : ¬ m < x := fun hx => ha (lt_of_le_of_lt hc hx)
          simp [hc, hmx, ha]
        · simp [hc]

theorem passBelow_filter (env : Env) (tgt : INode) (l : List INode) (mc : Option ℚ)
    (ci : ℚ) (h : cLess ci mc = true) (near : List Nat) :
    passBelow env tgt l (some ci) near
      = (passBelow env tgt l mc near).filter (fun j => decide (cpCost env tgt l j < ci)) := by
  unfold passBelow
  rw [List.filter_filter]
  refine List.filter_congr ?_
  intro j _
  by_cases hlt : cpCost env tgt l j < ci
  · have hmc : cLess (cpCost env tgt l j) mc = true := by
      cases mc with
      | none => rfl
      | some m =>
        simp only [cLess, decide_eq_true_eq] at h ⊢
        exact lt_trans hlt h
    simp only [cLess] at hmc
    cases hcol : env.collision tgt.state (inodeAt l j).state <;>
      simp [cLess, hlt, hmc, hcol]
  · cases hcol : env.collision tgt.state (inodeAt l j).state <;>
      simp [cLess, hlt, hcol]

theorem cpLoop_eq (env : Env) (tgt : INode) (l : List INode) :
    ∀ (near : List Nat) (mp : Option Nat) (mc : Option ℚ),
      cpLoop env tgt l near mp mc =
        match minCostIdx env tgt l (passBelow env tgt l mc near) with
        | none => (mp, mc)
        | some (i, c) => (some i, some c) := by
  intro near
  induction near with
  | nil => intro mp mc; simp [cpLoop, passBelow, minCostIdx]
  | cons a as ih =>
    intro mp mc
    by_cases hg : cLess (cpCost env tgt l a) mc = true
    · by_cases hcol : env.collision tgt.state (inodeAt l a).state = true
      · have hpb : passBelow env tgt l mc (a :: as) = a :: passBelow env tgt l mc as := by
          unfold passBelow
          rw [List.filter_cons_of_pos (by simp [hcol, hg])]
        have hstep : cpLoop env tgt l (a :: as) mp mc
            = cpLoop env tgt l as (some a) (some (cpCost env tgt l a)) := by
          simp [cpLoop, hg, hcol]
        rw [hstep, ih, hpb]
        rw [passBelow_filter env tgt l mc (cpCost env tgt l a) hg as]
        rw [minCostIdx_filter_lt]
        simp only [minCostIdx]
        cases hm : minCostIdx env tgt l (passBelow env tgt l mc as) with
        | none => simp
        | some p =>
          obtain ⟨j, m⟩ := p
          by_cases hlt : m < cpCost env tgt l a
          · have hnle : ¬ cpCost env tgt l a ≤ m := not_le.mpr hlt
            simp [hlt, hnle]
          · have hle : cpCost env tgt l a ≤ m := not_lt.mp hlt
            simp [hlt, hle]
      · have hpb : passBelow env tgt l mc (a :: as) = passBelow env tgt l mc as := by
          unfold passBelow
          rw [List.filter_cons_of_neg (by simp [hcol])]
        have hstep : cpLoop env tgt l (a :: as) mp mc = cpLoop env tgt l as mp mc := by
          simp [cpLoop, hg, hcol]
        rw [hstep, ih, hpb]
    · have hg2 : cLess (cpCost env tgt l a) mc = false := Bool.not_eq_true _ ▸ eq_false_of_ne_true hg
      have hpb : passBelow env tgt l mc (a :: as) = passBelow env tgt l mc as := by
        unfold passBelow
        rw [List.filter_cons_of_neg (by simp [hg2])]
      have hstep : cpLoop env tgt l (a :: as) mp mc = cpLoop env tgt l as mp mc := by
        simp [cpLoop, hg2]
      rw [hstep, ih, hpb]

/-- All-rejecting test environment (collision check always fails). -/
def envF : Env where
  dist := qdist
  collision := fun _ _ => false
  noentry := fun _ => false
  steerMove := fun _ d _ => d
  nearRadius := fun _ => 0

/-! ### C10: lazy parent selection refines the naive filter-then-min -/

/-- C10: the lazy scan of `chooseParentNode`, which evaluates
`checkCollision` only for near nodes whose cost improves the running
minimum, returns exactly the same node (parent and cost) as the naive
reference that first filters all near nodes by `checkCollision` and then
takes the minimum-cost one, first index on ties.  (`checkCollision` is a
function of the environment, hence deterministic.) -/
theorem c10_choose_parent_refinement (env : Env) (tgt : INode) (l : List INode)
    (near : List Nat) :
    InformedRRTStar.chooseParentNode env tgt l near
      = InformedRRTStar.chooseParentRef env tgt l near := by
  simp only [InformedRRTStar.chooseParentNode, InformedRRTStar.chooseParentRef]
  rw [cpLoop_eq, passBelow_none]
  cases hm : minCostIdx env tgt l (passList env tgt l near) with
  | none => simp
  | some p =>
    obtain ⟨i, c⟩ := p
    simp

/-! ### C6: specification of chooseParentNode -/

/-- C6: `chooseParentNode` re-parents the candidate onto a near node of
minimal `tree[i].cost + dist(tree[i].state, candidate.state)` among the
near nodes passing the collision check, updating its cost accordingly
and leaving its state alone; when no near node passes (in particular
when the index set is empty) the candidate is returned unchanged.
Symmetry of the distance is assumed, as for the Euclidean metric of the
source. -/
theorem c6_choose_parent_node (env : Env) (tgt : INode) (l : List INode)
    (near : List Nat) (hsymm : ∀ a b, env.dist a b = env.dist b a) :
    ((∀ i ∈ near, env.collision tgt.state (inodeAt l i).state = false) →
      InformedRRTStar.chooseParentNode env tgt l near = tgt) ∧
    (∀ i0 ∈ near, env.collision tgt.state (inodeAt l i0).state = true →
      ∃ i ∈ near, env.collision tgt.state (inodeAt l i).state = true ∧
        (InformedRRTStar.chooseParentNode env tgt l near).parent = some i ∧
        (InformedRRTStar.chooseParentNode env tgt l near).cost
          = (inodeAt l i).cost + env.dist (inodeAt l i).state tgt.state ∧
        (InformedRRTStar.chooseParentNode env tgt l near).state = tgt.state ∧
        ∀ j ∈ near, env.collision tgt.state (inodeAt l j).state = true →
          (InformedRRTStar.chooseParentNode env tgt l near).cost
            ≤ (inodeAt l j).cost + env.dist (inodeAt l j).state tgt.state) := by
  constructor
  · intro hall
    have hnil : passList env tgt l near = [] := by
      unfold passList
      refine List.filter_eq_nil_iff.mpr ?_
      intro i hi
      simp [hall i hi]
    simp only [InformedRRTStar.chooseParentNode]
    rw [cpLoop_eq, passBelow_none, hnil]
    simp [minCostIdx]
  · intro i0 hi0 hcol0
    have hmem0 : i0 ∈ passList env tgt l near := by
      unfold passList
      exact List.mem_filter.mpr ⟨hi0, by simp [hcol0]⟩
    obtain ⟨b, hb⟩ : ∃ p, minCostIdx env tgt l (passList env tgt l near) = some p := by
      cases hL : passList env tgt l near with
      | nil => rw [hL] at hmem0; exact absurd hmem0 (List.not_mem_nil i0)
      | cons x xs =>
        cases hmi : minCostIdx env tgt l (x :: xs) with
        | none => exact absurd hmi (minCostIdx_ne_none env tgt l x xs)
        | some p => exact ⟨p, rfl⟩
    obtain ⟨i, c⟩ := b
    obtain ⟨himem, hceq, hcmin⟩ := minCostIdx_spec env tgt l _ i c hb
    have hres : InformedRRTStar.chooseParentNode env tgt l near
        = { tgt with parent := some i, cost := c } := by
      simp only [InformedRRTStar.chooseParentNode]
      rw [cpLoop_eq, passBelow_none, hb]
    obtain ⟨hinear, hicol⟩ := List.mem_filter.mp himem
    refine ⟨i, hinear, by simpa using hicol, ?_, ?_, ?_, ?_⟩
    · rw [hres]
    · rw [hres, hceq]
      unfold cpCost
      rw [hsymm]
    · rw [hres]
    · intro j hj hjcol
      have hjmem : j ∈ passList env tgt l near :=
        List.mem_filter.mpr ⟨hj, by simp [hjcol]⟩
      have := hcmin j hjmem
      rw [hres]
      unfold cpCost at this
      rw [hsymm] at this
      exact this

/-- C6 witness: the unchanged branch of the theorem at a concrete input
where the single near node fails the collision check. -/
theorem c6_witness :
    InformedRRTStar.chooseParentNode envF ⟨[0, 0], none, 0⟩ [⟨[1, 0], none, 0⟩] [0]
      = ⟨[0, 0], none, 0⟩ :=
  (c6_choose_parent_node envF ⟨[0, 0], none, 0⟩ [⟨[1, 0], none, 0⟩] [0]
    (fun a b => qdist_symm a b)).1 (fun _ _ => rfl)

/-! ### Elementary tree-lookup lemmas -/

theorem inodeAt_append_lt (l : List INode) (x : INode) (i : Nat) (h : i < l.length) :
    inodeAt (l ++ [x]) i = inodeAt l i := by
  unfold inodeAt
  show ((l ++ [x]).get? i).getD _ = (l.get? i).getD _
  rw [List.get?_append h]

theorem inodeAt_append_self (l : List INode) (x : INode) :
    inodeAt (l ++ [x]) l.length = x := by
  unfold inodeAt
  show ((l ++ [x]).get? l.length).getD _ = x
  rw [List.get?_concat_length]
  rfl

theorem inodeAt_set_self (l : List INode) (x : INode) (i : Nat) (h : i < l.length) :
    inodeAt (l.set i x) i = x := by
  unfold inodeAt
  show ((l.set i x).get? i).getD _ = x
  rw [List.get?_set_eq_of_lt x h]
  rfl

theorem inodeAt_set_ne (l : List INode) (x : INode) (i j : Nat) (h : i ≠ j) :
    inodeAt (l.set i x) j = inodeAt l j := by
  unfold inodeAt
  show ((l.set i x).get? j).getD _ = (l.get? j).getD _
  rw [List.get?_set_ne x l h]

/-! ### Characterisation of the rewire loop -/

/-- The strict-improvement condition of `rewireNearNodes` for near index
`i`, phrased on the original list (`new_node` is the last entry). -/
def rewireCond (env : Env) (l : List INode) (i : Nat) : Prop :=
  (inodeAt l (l.length - 1)).cost
      + env.dist (inodeAt l i).state (inodeAt l (l.length - 1)).state
    < (inodeAt l i).cost
  ∧ env.collision (inodeAt l (l.length - 1)).state (inodeAt l i).state = true

instance (env : Env) (l : List INode) (i : Nat) : Decidable (rewireCond env l i) := by
  unfold rewireCond
  infer_instance

/-- The rewired value of near node `i`: parent moved to the last entry,
cost lowered to `new_node->cost + dist`. -/
def rewireUpd (env : Env) (l : List INode) (i : Nat) : INode :=
  { inodeAt l i with
    parent := some (l.length - 1)
    cost := (inodeAt l (l.length - 1)).cost
      + env.dist (inodeAt l i).state (inodeAt l (l.length - 1)).state }

theorem rewireCond_back_false (env : Env) (l : List INode)
    (hd : ∀ a b, 0 ≤ env.dist a b) : ¬ rewireCond env l (l.length - 1) := by
  intro h
  obtain ⟨hlt, -⟩ := h
  have := hd (inodeAt l (l.length - 1)).state (inodeAt l (l.length - 1)).state
  linarith

theorem rewireStep_spec (env : Env) (l lcur : List INode) (a : Nat)
    (hd : ∀ x y, 0 ≤ env.dist x y)
    (hlen : lcur.length = l.length)
    (hinv : ∀ j, j < l.length →
      inodeAt lcur j = inodeAt l j ∨
        (rewireCond env l j ∧ inodeAt lcur j = rewireUpd env l j)) :
    (rewireStep env lcur a).length = l.length ∧
    (∀ j, j ≠ a → inodeAt (rewireStep env lcur a) j = inodeAt lcur j) ∧
    (a < l.length →
      inodeAt (rewireStep env lcur a) a
        = (if rewireCond env l a then rewireUpd env l a else inodeAt lcur a)) ∧
    (∀ j, j < l.length →
      inodeAt (rewireStep env lcur a) j = inodeAt l j ∨
        (rewireCond env l j ∧ inodeAt (rewireStep env lcur a) j = rewireUpd env l j)) := by
  have hback : inodeAt lcur (l.length - 1) = inodeAt l (l.length - 1) := by
    by_cases hl : 0 < l.length
    · rcases hinv (l.length - 1) (by omega) with h | ⟨hc, -⟩
      · exact h
      · exact absurd hc (rewireCond_back_false env l hd)
    · have : l.length = 0 := by omega
      have hl2 : lcur = [] := List.length_eq_zero.mp (by omega)
      have hl3 : l = [] := List.length_eq_zero.mp this
      subst hl2 hl3
      rfl
  by_cases ha : a < l.length
  · -- the step acts on a valid index
    have ha2 : a < lcur.length := by omega
    have hbidx : lcur.length - 1 = l.length - 1 := by omega
    -- evaluate the guard
    by_cases hcur : inodeAt lcur a = inodeAt l a
    · -- entry still original: the guard is exactly `rewireCond`
      by_cases hc : rewireCond env l a
      · have hstep : rewireStep env lcur a
            = lcur.set a { inodeAt lcur a with
                parent := some (lcur.length - 1)
                cost := (inodeAt lcur (lcur.length - 1)).cost
                  + env.dist (inodeAt lcur a).state (inodeAt lcur (lcur.length - 1)).state } := by
          unfold rewireStep
          rw [if_pos ha2, if_pos]
          rw [hbidx, hback, hcur]
          exact ⟨hc.1, hc.2⟩
        have hupd : inodeAt (rewireStep env lcur a) a = rewireUpd env l a := by
          rw [hstep, inodeAt_set_self _ _ _ ha2]
          unfold rewireUpd
          rw [hbidx, hback, hcur]
        refine ⟨?_, ?_, ?_, ?_⟩
        · rw [hstep, List.length_set, hlen]
        · intro j hj
          rw [hstep, inodeAt_set_ne _ _ _ _ (fun h => hj h.symm)]
        · intro _
          rw [if_pos hc, hupd]
        · intro j hjl
          by_cases hja : j = a
          · subst hja
            exact Or.inr ⟨hc, hupd⟩
          · rw [hstep, inodeAt_set_ne _ _ _ _ (fun h => hja h.symm)]
            exact hinv j hjl
      · have hstep : rewireStep env lcur a = lcur := by
          unfold rewireStep
          rw [if_pos ha2, if_neg]
          rw [hbidx, hback, hcur]
          exact hc
        refine ⟨?_, ?_, ?_, ?_⟩
        · rw [hstep, hlen]
        · intro j _; rw [hstep]
        · intro _; rw [if_neg hc, hstep]
        · intro j hjl; rw [hstep]; exact hinv j hjl
    · -- entry already rewired: the guard fails (no strict improvement)
      rcases hinv a ha with h | ⟨hc, hupd⟩
      · exact absurd h hcur
      · have hstep : rewireStep env lcur a = lcur := by
          unfold rewireStep
          rw [if_pos ha2, if_neg]
          rw [hbidx, hback, hupd]
          unfold rewireUpd
          intro hcontr
          obtain ⟨hlt, -⟩ := hcontr
          simp only at hlt
          exact absurd hlt (lt_irrefl _)
        refine ⟨?_, ?_, ?_, ?_⟩
        · rw [hstep, hlen]
        · intro j _; rw [hstep]
        · intro _
          rw [if_pos hc, hstep, hupd]
        · intro j hjl; rw [hstep]; exact hinv j hjl
  · -- invalid index: no-op
    have hstep : rewireStep env lcur a = lcur := by
      unfold rewireStep
      rw [if_neg (by omega)]
    refine ⟨?_, ?_, ?_, ?_⟩
    · rw [hstep, hlen]
    · intro j _; rw [hstep]
    · intro h; exact absurd h ha
    · intro j hjl; rw [hstep]; exact hinv j hjl

theorem rewire_fold_spec (env : Env) (l : List INode) (hd : ∀ x y, 0 ≤ env.dist x y) :
    ∀ (near : List Nat) (lcur : List INode),
      lcur.length = l.length →
      (∀ j, j < l.length →
        inodeAt lcur j = inodeAt l j ∨
          (rewireCond env l j ∧ inodeAt lcur j = rewireUpd env l j)) →
      (near.foldl (rewireStep env) lcur).length = l.length ∧
      ∀ j, j < l.length →
        inodeAt (near.foldl (rewireStep env) lcur) j
          = (if j ∈ near ∧ rewireCond env l j then rewireUpd env l j
             else inodeAt lcur j) := by
  intro near
  induction near with
  | nil =>
    intro lcur hlen hinv
    refine ⟨hlen, ?_⟩
    intro j _
    simp
  | cons a as ih =>
    intro lcur hlen hinv
    obtain ⟨hslen, hsne, hsa, hsinv⟩ := rewireStep_spec env l lcur a hd hlen hinv
    obtain ⟨hflen, hfp⟩ := ih (rewireStep env lcur a) hslen hsinv
    simp only [List.foldl_cons]
    refine ⟨hflen, ?_⟩
    intro j hj
    have hfj := hfp j hj
    by_cases hcj : rewireCond env l j
    · by_cases hmemas : j ∈ as
      · rw [hfj, if_pos ⟨hmemas, hcj⟩, if_pos ⟨List.mem_cons_of_mem _ hmemas, hcj⟩]
      · by_cases hja : j = a
        · subst hja
          rw [hfj, if_neg (fun h => hmemas h.1), if_pos ⟨List.mem_cons_self _ _, hcj⟩]
          rw [hsa hj, if_pos hcj]
        · have hnc : j ∉ a :: as := by
            intro h
            rcases List.mem_cons.mp h with h | h
            exacts [hja h, hmemas h]
          rw [hfj, if_neg (fun h => hmemas h.1), if_neg (fun h => hnc h.1)]
          exact hsne j hja
    · rw [hfj, if_neg (fun h => hcj h.2), if_neg (fun h => hcj h.2)]
      by_cases hja : j = a
      · subst hja
        rw [hsa hj, if_neg hcj]
      · exact hsne j hja

/-! ### C7: rewiring only lowers costs, and exactly under its guard -/

/-- C7: a near node `i` is re-parented onto the freshly appended node
(index `N-1`), with cost `new.cost + dist(new.state, tree[i].state)`,
exactly when that cost strictly beats `tree[i].cost` and the collision
check of the pair passes; every other node is untouched, and no node's
cost ever increases.  Distance nonnegativity and symmetry are assumed,
as for the Euclidean metric of the source. -/
theorem c7_rewire_near_nodes (env : Env) (l : List INode) (near : List Nat)
    (hd : ∀ a b, 0 ≤ env.dist a b) (hs : ∀ a b, env.dist a b = env.dist b a) :
    (∀ i, i < l.length →
      (inodeAt (InformedRRTStar.rewireNearNodes env l near) i).cost
        ≤ (inodeAt l i).cost) ∧
    (∀ i, i < l.length →
      inodeAt (InformedRRTStar.rewireNearNodes env l near) i
        = (if i ∈ near ∧
              (inodeAt l (l.length - 1)).cost
                  + env.dist (inodeAt l (l.length - 1)).state (inodeAt l i).state
                < (inodeAt l i).cost ∧
              env.collision (inodeAt l (l.length - 1)).state (inodeAt l i).state = true
           then { inodeAt l i with
                  parent := some (l.length - 1)
                  cost := (inodeAt l (l.length - 1)).cost
                    + env.dist (inodeAt l (l.length - 1)).state (inodeAt l i).state }
           else inodeAt l i)) := by
  have hinv0 : ∀ j, j < l.length →
      inodeAt l j = inodeAt l j ∨ (rewireCond env l j ∧ inodeAt l j = rewireUpd env l j) :=
    fun _ _ => Or.inl rfl
  obtain ⟨-, hp⟩ := rewire_fold_spec env l hd near l rfl hinv0
  have hrw : InformedRRTStar.rewireNearNodes env l near = near.foldl (rewireStep env) l := rfl
  constructor
  · intro i hi
    rw [hrw, hp i hi]
    by_cases h : i ∈ near ∧ rewireCond env l i
    · rw [if_pos h]
      unfold rewireUpd
      exact le_of_lt h.2.1
    · rw [if_neg h]
  · intro i hi
    rw [hrw, hp i hi]
    unfold rewireCond rewireUpd
    rw [hs (inodeAt l (l.length - 1)).state (inodeAt l i).state]

/-- C7 witness: the cost-monotonicity conclusion at a concrete two-node
tree rewiring the root candidate set. -/
theorem c7_witness :
    (inodeAt
        (InformedRRTStar.rewireNearNodes envT
          [⟨[0, 0], none, 0⟩, ⟨[1, 0], some 0, 9⟩] [1]) 1).cost
      ≤ (inodeAt [⟨[0, 0], none, 0⟩, ⟨[1, 0], some 0, 9⟩] 1).cost :=
  (c7_rewire_near_nodes envT [⟨[0, 0], none, 0⟩, ⟨[1, 0], some 0, 9⟩] [1]
    (fun a b => qdist_nonneg a b) (fun a b => qdist_symm a b)).1 1 (by decide)

/-! ### RNode lookup lemmas and the nearest-index bound -/

theorem rnodeAt_append_lt (l : List RNode) (x : RNode) (i : Nat) (h : i < l.length) :
    rnodeAt (l ++ [x]) i = rnodeAt l i := by
  unfold rnodeAt
  show ((l ++ [x]).get? i).getD _ = (l.get? i).getD _
  rw [List.get?_append h]

theorem rnodeAt_append_self (l : List RNode) (x : RNode) :
    rnodeAt (l ++ [x]) l.length = x := by
  unfold rnodeAt
  show ((l ++ [x]).get? l.length).getD _ = x
  rw [List.get?_concat_length]
  rfl

theorem nearestGo_cases (env : Env) (t : State) :
    ∀ (ss : List State) (i bi : Nat) (bd : Option ℚ),
      nearestGo env t ss i bi bd = bi ∨
        ∃ k, k < ss.length ∧ nearestGo env t ss i bi bd = i + k := by
  intro ss
  induction ss with
  | nil => intro i bi bd; exact Or.inl rfl
  | cons s rest ih =>
    intro i bi bd
    cases bd with
    | none =>
      simp only [nearestGo]
      rcases ih (i + 1) i (some (env.dist s t)) with h | ⟨k, hk, h⟩
      · exact Or.inr ⟨0, by simp, by rw [h]; omega⟩
      · exact Or.inr ⟨k + 1, by simpa using Nat.succ_lt_succ hk, by rw [h]; omega⟩
    | some m =>
      simp only [nearestGo]
      by_cases hlt : env.dist s t < m
      · rw [if_pos hlt]
        rcases ih (i + 1) i (some (env.dist s t)) with h | ⟨k, hk, h⟩
        · exact Or.inr ⟨0, by simp, by rw [h]; omega⟩
        · exact Or.inr ⟨k + 1, by simpa using Nat.succ_lt_succ hk, by rw [h]; omega⟩
      · rw [if_neg hlt]
        rcases ih (i + 1) bi (some m) with h | ⟨k, hk, h⟩
        · exact Or.inl h
        · exact Or.inr ⟨k + 1, by simpa using Nat.succ_lt_succ hk, by rw [h]; omega⟩

theorem rrt_nearest_lt (env : Env) (t : State) (l : List RNode) (h : 0 < l.length) :
    RRT.getNearestNodeIndex env t l < l.length := by
  unfold RRT.getNearestNodeIndex
  rcases nearestGo_cases env t (l.map (fun n => n.state)) 0 0 none with h2 | ⟨k, hk, h2⟩
  · rw [h2]; exact h
  · rw [h2]
    simpa using lt_of_lt_of_le hk (by simp)

theorem irrt_nearest_lt (env : Env) (t : State) (l : List INode) (h : 0 < l.length) :
    InformedRRTStar.getNearestNodeIndex env t l < l.length := by
  unfold InformedRRTStar.getNearestNodeIndex
  rcases nearestGo_cases env t (l.map (fun n => n.state)) 0 0 none with h2 | ⟨k, hk, h2⟩
  · rw [h2]; exact h
  · rw [h2]
    simpa using lt_of_lt_of_le hk (by simp)

/-! ### C8: the RRT sampling budget -/

/-- Test environment where the point `[7,7]` is NOENTRY. -/
def envC8 : Env where
  dist := qdist
  collision := fun _ _ => true
  noentry := fun s => decide (s = [7, 7])
  steerMove := fun _ d _ => d
  nearRadius := fun _ => 0

/-- C8 counterexample: with `max_sampling_num = 1`, an iteration whose
uniform sample is NOENTRY is discarded without touching `sampling_cnt`,
so after one full iteration the loop is still running (`none`: the
one-draw stream is exhausted), and only a second iteration makes the
budget fire — `solve` thus performs more than `max_sampling_num`
sampling iterations. -/
theorem c8_counterexample :
    RRT.solveLoop envC8 0 1 [9, 9] 1 [⟨1, [7, 7]⟩] [⟨[0, 0], none⟩] 0 = none ∧
    RRT.solveLoop envC8 0 1 [9, 9] 1 [⟨1, [7, 7]⟩, ⟨1, [5, 5]⟩] [⟨[0, 0], none⟩] 0
      = some (false, [⟨[0, 0], none⟩, ⟨[5, 5], some 0⟩], 1) := by
  constructor
  · decide
  · norm_num [RRT.solveLoop, RRT.getNearestNodeIndex, RRT.generateSteerNode,
      nearestGo, rnodeAt, qdist, envC8]

/-- C8 (amended): only iterations that survive the NOENTRY resampling
check increment `sampling_cnt`.  Whenever `0 < max_sampling_num < 2^32`
and the loop is entered with the counter below the budget, a `false`
return happens exactly when the counter reaches `max_sampling_num` and a
successful return leaves it strictly below — so at most
`max_sampling_num` counted iterations are performed.  Discarded NOENTRY
iterations are not bounded: an all-NOENTRY stream of any length leaves
the loop still running (second conjunct), so `solve` need not terminate
within `max_sampling_num` iterations, nor at all; for
`max_sampling_num = 0` the `uint32_t` comparison first fires after
`2^32` counted iterations. -/
theorem c8_rrt_budget :
    (∀ (env : Env) (rate expand : ℚ) (goal : State) (maxN : Nat),
      0 < maxN → maxN < 2 ^ 32 →
      ∀ (draws : List Draw) (l : List RNode) (cnt : Nat) (b : Bool) (L : List RNode)
        (c : Nat),
        cnt < maxN →
        RRT.solveLoop env rate expand goal maxN draws l cnt = some (b, L, c) →
        (b = false → c = maxN) ∧ (b = true → c < maxN)) ∧
    (∀ n : Nat,
      RRT.solveLoop envC8 0 1 [9, 9] 1 (List.replicate n ⟨1, [7, 7]⟩) [⟨[0, 0], none⟩] 0
        = none) := by
  constructor
  · intro env rate expand goal maxN hm hm32 draws
    induction draws with
    | nil =>
      intro l cnt b L c hcnt h
      exact absurd h (by simp [RRT.solveLoop])
    | cons d ds ih =>
      intro l cnt b L c hcnt h
      simp only [RRT.solveLoop] at h
      by_cases hskip : rate < d.u ∧ env.noentry d.pt = true
      · rw [if_pos hskip] at h
        exact ih l cnt b L c hcnt h
      · rw [if_neg hskip] at h
        by_cases hcol : env.collision
            (rnodeAt l (RRT.getNearestNodeIndex env
              (if rate < d.u then d.pt else goal) l)).state
            (RRT.generateSteerNode env expand
              (rnodeAt l (RRT.getNearestNodeIndex env
                (if rate < d.u then d.pt else goal) l))
              (RRT.getNearestNodeIndex env (if rate < d.u then d.pt else goal) l)
              (if rate < d.u then d.pt else goal)).state = true
        · rw [if_pos hcol] at h
          by_cases hgoal : env.dist
              (RRT.generateSteerNode env expand
                (rnodeAt l (RRT.getNearestNodeIndex env
                  (if rate < d.u then d.pt else goal) l))
                (RRT.getNearestNodeIndex env (if rate < d.u then d.pt else goal) l)
                (if rate < d.u then d.pt else goal)).state goal ≤ expand
          · rw [if_pos hgoal] at h
            simp only [Option.some.injEq, Prod.mk.injEq] at h
            obtain ⟨hb, -, hc⟩ := h
            subst hb hc
            exact ⟨fun hf => absurd hf (by decide), fun _ => hcnt⟩
          · rw [if_neg hgoal] at h
            by_cases hbud : (cnt + 1) % 2 ^ 32 = maxN % 2 ^ 32
            · rw [if_pos hbud] at h
              simp only [Option.some.injEq, Prod.mk.injEq] at h
              obtain ⟨hb, -, hc⟩ := h
              subst hb hc
              have h1 : (cnt + 1) % 2 ^ 32 = cnt + 1 := Nat.mod_eq_of_lt (by omega)
              have h2 : maxN % 2 ^ 32 = maxN := Nat.mod_eq_of_lt (by omega)
              rw [h1, h2] at hbud
              exact ⟨fun _ => hbud, fun ht => absurd ht (by decide)⟩
            · rw [if_neg hbud] at h
              have h1 : (cnt + 1) % 2 ^ 32 = cnt + 1 := Nat.mod_eq_of_lt (by omega)
              have h2 : maxN % 2 ^ 32 = maxN := Nat.mod_eq_of_lt (by omega)
              rw [h1, h2] at hbud
              exact ih _ (cnt + 1) b L c (by omega) h
        · rw [if_neg hcol] at h
          by_cases hbud : (cnt + 1) % 2 ^ 32 = maxN % 2 ^ 32
          · rw [if_pos hbud] at h
            simp only [Option.some.injEq, Prod.mk.injEq] at h
            obtain ⟨hb, -, hc⟩ := h
            subst hb hc
            have h1 : (cnt + 1) % 2 ^ 32 = cnt + 1 := Nat.mod_eq_of_lt (by omega)
            have h2 : maxN % 2 ^ 32 = maxN := Nat.mod_eq_of_lt (by omega)
            rw [h1, h2] at hbud
            exact ⟨fun _ => hbud, fun ht => absurd ht (by decide)⟩
          · rw [if_neg hbud] at h
            have h1 : (cnt + 1) % 2 ^ 32 = cnt + 1 := Nat.mod_eq_of_lt (by omega)
            have h2 : maxN % 2 ^ 32 = maxN := Nat.mod_eq_of_lt (by omega)
            rw [h1, h2] at hbud
            exact ih _ (cnt + 1) b L c (by omega) h
  · intro n
    induction n with
    | zero => simp [RRT.solveLoop]
    | succ k ih =>
      rw [List.replicate_succ]
      simp only [RRT.solveLoop]
      rw [if_pos ⟨by norm_num, by decide⟩]
      exact ih

/-- Evaluation of the concrete two-draw failing run used by the C8
witness. -/
theorem c8_run_eval :
    RRT.solveLoop envC8 0 1 [9, 9] 1 [⟨1, [7, 7]⟩, ⟨1, [5, 5]⟩] [⟨[0, 0], none⟩] 0
      = some (false, [⟨[0, 0], none⟩, ⟨[5, 5], some 0⟩], 1) := by
  norm_num [RRT.solveLoop, RRT.getNearestNodeIndex, RRT.generateSteerNode,
    nearestGo, rnodeAt, qdist, envC8]

/-- C8 witness: the amended budget theorem applied to the concrete
two-draw failing run of the counterexample environment. -/
theorem c8_witness :
    ((false : Bool) = false → (1 : Nat) = 1) ∧ ((false : Bool) = true → (1 : Nat) < 1) :=
  c8_rrt_budget.1 envC8 0 1 [9, 9] 1 (by norm_num) (by norm_num)
    [⟨1, [7, 7]⟩, ⟨1, [5, 5]⟩] [⟨[0, 0], none⟩] 0 false
    [⟨[0, 0], none⟩, ⟨[5, 5], some 0⟩] 1 (by norm_num) c8_run_eval

/-! ### C3: result state after a failed solve -/

/-- Evaluation of a concrete failing `RRT::solve` (budget 1, target not
reached) with the previous result still stored. -/
theorem rrt_fail_run_eval :
    RRT.solve envC8 0 1 1 [0, 0] [9, 9] [⟨1, [5, 5]⟩] [[3, 3]]
      = some (false, [[3, 3]]) := by
  norm_num [RRT.solve, RRT.solveLoop, RRT.getNearestNodeIndex,
    RRT.generateSteerNode, nearestGo, rnodeAt, qdist, envC8]

/-- Evaluation of a concrete failing `InformedRRTStar::solve` (no node
within `expand_dist` of the goal). -/
theorem irrt_fail_run_eval :
    InformedRRTStar.solve envC8 0 1 1 [0, 0] [9, 9] [⟨1, [5, 5]⟩]
      = .ok (some (false, [], [⟨[0, 0], none, 0⟩, ⟨[5, 5], some 0, 1⟩])) := by
  norm_num [InformedRRTStar.solve, InformedRRTStar.solveLoop,
    InformedRRTStar.getNearestNodeIndex, InformedRRTStar.generateSteerNode,
    InformedRRTStar.findNearNodes, InformedRRTStar.chooseParentNode,
    InformedRRTStar.rewireNearNodes, InformedRRTStar.getBestNodeIndex,
    bestGo, cpLoop, cpCost, cLess, rewireStep, iwalkRev, nearestGo, inodeAt,
    qdist, envC8, List.range_succ]

/-- C3 counterexample: a failed `RRT::solve` (budget exhausted) returns
`false` at line 116 before ever reaching the `result_.clear()` at line
121, so a result filled by a previous successful solve survives the
failure — here the stale `[[3,3]]`. -/
theorem c3_counterexample :
    RRT.solve envC8 0 1 1 [0, 0] [9, 9] [⟨1, [5, 5]⟩] [[3, 3]]
      = some (false, [[3, 3]]) ∧ ([[3, 3]] : List State) ≠ [] :=
  ⟨rrt_fail_run_eval, by simp⟩

/-- C3 (amended): a failed `InformedRRTStar::solve` leaves the result
empty (`result_.clear()` runs before the best-node selection), but a
failed `RRT::solve` returns with the previous solve's result untouched. -/
theorem c3_failed_solve (env : Env) (rate expand : ℚ) (maxN : Nat)
    (start goal : State) (draws : List Draw) (prev : List State) :
    (∀ res, RRT.solve env rate expand maxN start goal draws prev = some (false, res) →
      res = prev) ∧
    (∀ res nodes,
      InformedRRTStar.solve env rate expand maxN start goal draws
        = .ok (some (false, res, nodes)) → res = []) := by
  constructor
  · intro res h
    unfold RRT.solve at h
    cases hr : RRT.solveLoop env rate expand goal maxN draws [⟨start, none⟩] 0 with
    | none => rw [hr] at h; exact absurd h (by simp)
    | some p =>
      obtain ⟨b, L, c⟩ := p
      rw [hr] at h
      cases b with
      | true => simp at h
      | false =>
        simp only [Option.some.injEq, Prod.mk.injEq] at h
        exact h.2.symm
  · intro res nodes h
    unfold InformedRRTStar.solve at h
    by_cases hdim : start.length ≠ goal.length ∨ start.length < 2
    · rw [if_pos hdim] at h
      exact absurd h (by simp)
    · rw [if_neg hdim] at h
      cases hr : InformedRRTStar.solveLoop env rate expand goal maxN draws
          [⟨start, none, 0⟩] with
      | none => rw [hr] at h; exact absurd h (by simp)
      | some l =>
        rw [hr] at h
        simp only [Option.map_some', Except.ok.injEq, Option.some.injEq] at h
        cases hb : InformedRRTStar.getBestNodeIndex env goal expand l with
        | none =>
          rw [hb] at h
          simp only [Prod.mk.injEq] at h
          exact h.2.1.symm
        | some b =>
          rw [hb] at h
          by_cases hg : (inodeAt l b).state = goal <;> simp [hg] at h

/-- C3 witness: the amended theorem applied to the two concrete failing
runs (RRT keeps the stale result, Informed RRT* reports the cleared
one). -/
theorem c3_witness :
    ([[3, 3]] : List State) = [[3, 3]] ∧ ([] : List State) = [] :=
  ⟨(c3_failed_solve envC8 0 1 1 [0, 0] [9, 9] [⟨1, [5, 5]⟩] [[3, 3]]).1
      [[3, 3]] rrt_fail_run_eval,
   (c3_failed_solve envC8 0 1 1 [0, 0] [9, 9] [⟨1, [5, 5]⟩] [[3, 3]]).2
      [] [⟨[0, 0], none, 0⟩, ⟨[5, 5], some 0, 1⟩] irrt_fail_run_eval⟩

/-! ### The RRT tree invariant and the success shape of the loop -/

/-- Invariant of the RRT `node_list` while the loop runs: nonempty, the
root (index 0) is the only parentless node, and every edge goes to a
strictly earlier index and was collision-checked in parent-to-child
order when its child was appended. -/
structure RInv (env : Env) (l : List RNode) : Prop where
  len_pos : 0 < l.length
  root_par : (rnodeAt l 0).parent = none
  par_none : ∀ i, i < l.length → (rnodeAt l i).parent = none → i = 0
  par_edge : ∀ i j, i < l.length → (rnodeAt l i).parent = some j →
    j < i ∧ env.collision (rnodeAt l j).state (rnodeAt l i).state = true

theorem rinv_push (env : Env) (l : List RNode) (inv : RInv env l) (x : RNode) (j : Nat)
    (hx : x.parent = some j) (hj : j < l.length)
    (hc : env.collision (rnodeAt l j).state x.state = true) :
    RInv env (l ++ [x]) := by
  constructor
  · simp
  · rw [rnodeAt_append_lt l _ 0 inv.len_pos]
    exact inv.root_par
  · intro i hi hp
    by_cases hil : i < l.length
    · rw [rnodeAt_append_lt l _ i hil] at hp
      exact inv.par_none i hil hp
    · have hieq : i = l.length := by simp at hi; omega
      subst hieq
      rw [rnodeAt_append_self] at hp
      rw [hx] at hp
      exact absurd hp (by simp)
  · intro i k hi hp
    by_cases hil : i < l.length
    · rw [rnodeAt_append_lt l _ i hil] at hp
      obtain ⟨h1, h2⟩ := inv.par_edge i k hil hp
      refine ⟨h1, ?_⟩
      rw [rnodeAt_append_lt l _ k (lt_trans h1 hil), rnodeAt_append_lt l _ i hil]
      exact h2
    · have hieq : i = l.length := by simp at hi; omega
      subst hieq
      rw [rnodeAt_append_self] at hp
      rw [hx] at hp
      simp only [Option.some.injEq] at hp
      subst hp
      refine ⟨hj, ?_⟩
      rw [rnodeAt_append_lt l _ j hj, rnodeAt_append_self]
      exact hc

theorem rrt_loop_success (env : Env) (rate expand : ℚ) (goal : State) (maxN : Nat) :
    ∀ (draws : List Draw) (l : List RNode) (cnt : Nat) (L : List RNode) (c : Nat),
      RRT.solveLoop env rate expand goal maxN draws l cnt = some (true, L, c) →
      RInv env l →
      ∃ l2 : List RNode,
        L = l2 ++ [⟨goal, some (l2.length - 1)⟩] ∧ RInv env l2 ∧
          env.dist (rnodeAt l2 (l2.length - 1)).state goal ≤ expand ∧
          rnodeAt l2 0 = rnodeAt l 0 := by
  intro draws
  induction draws with
  | nil =>
    intro l cnt L c h inv
    exact absurd h (by simp [RRT.solveLoop])
  | cons d ds ih =>
    intro l cnt L c h inv
    simp only [RRT.solveLoop] at h
    by_cases hskip : rate < d.u ∧ env.noentry d.pt = true
    · rw [if_pos hskip] at h
      exact ih l cnt L c h inv
    · rw [if_neg hskip] at h
      set tgt := (if rate < d.u then d.pt else goal) with htgt
      set ni := RRT.getNearestNodeIndex env tgt l with hni
      set nn := RRT.generateSteerNode env expand (rnodeAt l ni) ni tgt with hnn
      by_cases hcol : env.collision (rnodeAt l ni).state nn.state = true
      · rw [if_pos hcol] at h
        have hni_lt : ni < l.length := by
          rw [hni]
          exact rrt_nearest_lt env tgt l inv.len_pos
        have hnn_par : nn.parent = some ni := by
          rw [hnn]
          unfold RRT.generateSteerNode
          split <;> rfl
        have inv2 : RInv env (l ++ [nn]) := rinv_push env l inv nn ni hnn_par hni_lt hcol
        by_cases hgoal : env.dist nn.state goal ≤ expand
        · rw [if_pos hgoal] at h
          simp only [Option.some.injEq, Prod.mk.injEq] at h
          obtain ⟨-, hL, -⟩ := h
          refine ⟨l ++ [nn], hL.symm, inv2, ?_, ?_⟩
          · have : (l ++ [nn]).length - 1 = l.length := by simp
            rw [this, rnodeAt_append_self]
            exact hgoal
          · rw [rnodeAt_append_lt l nn 0 inv.len_pos]
        · rw [if_neg hgoal] at h
          by_cases hbud : (cnt + 1) % 2 ^ 32 = maxN % 2 ^ 32
          · rw [if_pos hbud] at h
            simp at h
          · rw [if_neg hbud] at h
            obtain ⟨l2, hA, hB, hD, hC⟩ := ih (l ++ [nn]) (cnt + 1) L c h inv2
            exact ⟨l2, hA, hB, hD, by rw [hC, rnodeAt_append_lt l nn 0 inv.len_pos]⟩
      · rw [if_neg hcol] at h
        by_cases hbud : (cnt + 1) % 2 ^ 32 = maxN % 2 ^ 32
        · rw [if_pos hbud] at h
          simp at h
        · rw [if_neg hbud] at h
          exact ih l (cnt + 1) L c h inv

/-! ### Parent-chain walks in an RRT tree -/

theorem getLast?_cons_of_ne_nil {α : Type} (a : α) (L : List α) (h : L ≠ []) :
    (a :: L).getLast? = L.getLast? := by
  cases L with
  | nil => exact absurd rfl h
  | cons b bs => simp [List.getLast?_cons_cons]

theorem rwalk_props (env : Env) (l : List RNode) (inv : RInv env l) :
    ∀ i, i < l.length → ∀ fuel, i < fuel →
      rwalkRev l fuel i ≠ [] ∧
      (rwalkRev l fuel i).head? = some (rnodeAt l i).state ∧
      (rwalkRev l fuel i).getLast? = some (rnodeAt l 0).state ∧
      List.Chain' (fun a b => env.collision b a = true) (rwalkRev l fuel i) := by
  intro i
  induction i using Nat.strong_induction_on with
  | _ i ihs =>
    intro hi fuel hf
    obtain ⟨f, rfl⟩ : ∃ f, fuel = f + 1 := ⟨fuel - 1, by omega⟩
    simp only [rwalkRev]
    cases hp : (rnodeAt l i).parent with
    | none =>
      have hi0 : i = 0 := inv.par_none i hi hp
      subst hi0
      exact ⟨by simp, rfl, by simp, List.chain'_singleton _⟩
    | some j =>
      obtain ⟨hji, hcol⟩ := inv.par_edge i j hi hp
      have hjl : j < l.length := lt_trans hji hi
      have hjf : j < f := by omega
      obtain ⟨hne, hhead, hlast, hchain⟩ := ihs j hji hjl f hjf
      refine ⟨by simp, rfl, ?_, ?_⟩
      · rw [getLast?_cons_of_ne_nil _ _ hne]
        exact hlast
      · refine List.chain'_cons'.mpr ⟨?_, hchain⟩
        intro y hy
        rw [hhead] at hy
        simp only [Option.mem_def, Option.some.injEq] at hy
        subst hy
        exact hcol

theorem rwalk_append (env : Env) (l : List RNode) (inv : RInv env l) (x : RNode) :
    ∀ fuel i, i < l.length → rwalkRev (l ++ [x]) fuel i = rwalkRev l fuel i := by
  intro fuel
  induction fuel with
  | zero => intro i _; rfl
  | succ f ih =>
    intro i hi
    cases hp : (rnodeAt l i).parent with
    | none =>
      simp only [rwalkRev]
      rw [rnodeAt_append_lt l x i hi]
      simp only [hp]
    | some j =>
      obtain ⟨hji, -⟩ := inv.par_edge i j hi hp
      simp only [rwalkRev]
      rw [rnodeAt_append_lt l x i hi]
      simp only [hp]
      rw [ih j (lt_trans hji hi)]

/-! ### Parent-step iteration lemmas -/

theorem pIterI_add (l : List INode) : ∀ (a b i : Nat),
    pIterI l (a + b) i = pIterI l b (pIterI l a i) := by
  intro a
  induction a with
  | zero => intro b i; rw [Nat.zero_add]; rfl
  | succ k ih =>
    intro b i
    have hs : k + 1 + b = (k + b) + 1 := by omega
    rw [hs]
    simp only [pIterI]
    exact ih b (pstepI l i)

theorem pIterI_succ_right (l : List INode) (k i : Nat) :
    pIterI l (k + 1) i = pstepI l (pIterI l k i) := by
  rw [pIterI_add l k 1 i]
  rfl

theorem pIterI_comm (l : List INode) (a b i : Nat) :
    pIterI l a (pIterI l b i) = pIterI l b (pIterI l a i) := by
  rw [← pIterI_add l b a i, ← pIterI_add l a b i, Nat.add_comm]

/-! ### The Informed RRT* tree invariant -/

/-- Invariant of the `InformedRRTStar` node list across the solve loop:
nonempty; the root (index 0) is the unique parentless node, with cost 0;
all costs are nonnegative; every edge stays in range, never decreases
the cost from parent to child, and was collision-checked in one of the
two orders; and no node lies on a parent-link cycle. -/
structure TreeInv (env : Env) (l : List INode) : Prop where
  len_pos : 0 < l.length
  root_par : (inodeAt l 0).parent = none
  root_cost : (inodeAt l 0).cost = 0
  cost_nn : ∀ i, i < l.length → 0 ≤ (inodeAt l i).cost
  par_none : ∀ i, i < l.length → (inodeAt l i).parent = none → i = 0
  par_edge : ∀ i j, i < l.length → (inodeAt l i).parent = some j →
    j < l.length ∧ (inodeAt l j).cost ≤ (inodeAt l i).cost ∧
      (env.collision (inodeAt l j).state (inodeAt l i).state = true ∨
       env.collision (inodeAt l i).state (inodeAt l j).state = true)
  nocyc : ∀ i k, i < l.length → pIterI l (k + 1) i = i → (inodeAt l i).parent = none

theorem pstepI_lt (env : Env) (l : List INode) (inv : TreeInv env l) (i : Nat)
    (hi : i < l.length) : pstepI l i < l.length := by
  unfold pstepI
  cases hp : (inodeAt l i).parent with
  | none => exact hi
  | some j => exact (inv.par_edge i j hi hp).1

theorem pstepI_cost (env : Env) (l : List INode) (inv : TreeInv env l) (i : Nat)
    (hi : i < l.length) : (inodeAt l (pstepI l i)).cost ≤ (inodeAt l i).cost := by
  unfold pstepI
  cases hp : (inodeAt l i).parent with
  | none => exact le_refl _
  | some j => exact (inv.par_edge i j hi hp).2.1

theorem pIterI_lt (env : Env) (l : List INode) (inv : TreeInv env l) :
    ∀ k i, i < l.length → pIterI l k i < l.length := by
  intro k
  induction k with
  | zero => intro i hi; exact hi
  | succ m ih =>
    intro i hi
    simp only [pIterI]
    exact ih (pstepI l i) (pstepI_lt env l inv i hi)

theorem pIterI_cost (env : Env) (l : List INode) (inv : TreeInv env l) :
    ∀ k i, i < l.length → (inodeAt l (pIterI l k i)).cost ≤ (inodeAt l i).cost := by
  intro k
  induction k with
  | zero => intro i _; exact le_refl _
  | succ m ih =>
    intro i hi
    simp only [pIterI]
    exact le_trans (ih (pstepI l i) (pstepI_lt env l inv i hi)) (pstepI_cost env l inv i hi)

theorem pstepI_root (env : Env) (l : List INode) (inv : TreeInv env l) :
    pstepI l 0 = 0 := by
  unfold pstepI
  rw [inv.root_par]

theorem pIterI_root (env : Env) (l : List INode) (inv : TreeInv env l) :
    ∀ k, pIterI l k 0 = 0 := by
  intro k
  induction k with
  | zero => rfl
  | succ m ih =>
    simp only [pIterI]
    rw [pstepI_root env l inv]
    exact ih

theorem treeInv_no_repeat (env : Env) (l : List INode) (inv : TreeInv env l)
    (i : Nat) (hi : i < l.length)
    (hz : ∀ t, t < l.length → pIterI l t i ≠ 0) :
    ∀ a b, a < b → b ≤ l.length → pIterI l a i ≠ pIterI l b i := by
  intro a b hab hb heq
  have hy : pIterI l a i < l.length := pIterI_lt env l inv a i hi
  have hcyc : pIterI l (b - a) (pIterI l a i) = pIterI l a i := by
    rw [← pIterI_add l a (b - a) i]
    rw [show a + (b - a) = b by omega]
    exact heq.symm
  have hpar : (inodeAt l (pIterI l a i)).parent = none := by
    refine inv.nocyc (pIterI l a i) (b - a - 1) hy ?_
    rw [show b - a - 1 + 1 = b - a by omega]
    exact hcyc
  have h0 : pIterI l a i = 0 := inv.par_none _ hy hpar
  exact hz a (lt_of_lt_of_le hab hb) h0

theorem treeInv_reach (env : Env) (l : List INode) (inv : TreeInv env l) :
    ∀ i, i < l.length → ∃ t, t < l.length ∧ pIterI l t i = 0 := by
  intro i hi
  by_contra hno
  push_neg at hno
  have hz : ∀ t, t < l.length → pIterI l t i ≠ 0 := fun t ht => hno t ht
  have hmaps : ∀ t ∈ Finset.range l.length,
      pIterI l t i ∈ Finset.Ico 1 l.length := by
    intro t ht
    simp only [Finset.mem_range] at ht
    have h1 : pIterI l t i < l.length := pIterI_lt env l inv t i hi
    have h2 : pIterI l t i ≠ 0 := hz t ht
    simp only [Finset.mem_Ico]
    omega
  have hcard : (Finset.Ico 1 l.length).card < (Finset.range l.length).card := by
    rw [Nat.card_Ico, Finset.card_range]
    have := inv.len_pos
    omega
  obtain ⟨a, ha, b, hb, hab, heq⟩ :=
    Finset.exists_ne_map_eq_of_card_lt_of_maps_to hcard hmaps
  simp only [Finset.mem_range] at ha hb
  rcases Nat.lt_or_ge a b with h | h
  · exact treeInv_no_repeat env l inv i hi hz a b h (le_of_lt hb) heq
  · have h2 : b < a := by omega
    exact treeInv_no_repeat env l inv i hi hz b a h2 (le_of_lt ha) heq.symm

theorem treeInv_reach_full (env : Env) (l : List INode) (inv : TreeInv env l) :
    ∀ i, i < l.length → pIterI l l.length i = 0 := by
  intro i hi
  obtain ⟨t, ht, h0⟩ := treeInv_reach env l inv i hi
  rw [show l.length = t + (l.length - t) by omega, pIterI_add, h0]
  exact pIterI_root env l inv _

/-! ### Invariant preservation: appending a node -/

theorem pstepI_append_lt (l : List INode) (x : INode) (i : Nat) (h : i < l.length) :
    pstepI (l ++ [x]) i = pstepI l i := by
  unfold pstepI
  rw [inodeAt_append_lt l x i h]

theorem pIterI_append_lt (env : Env) (l : List INode) (inv : TreeInv env l) (x : INode) :
    ∀ k i, i < l.length → pIterI (l ++ [x]) k i = pIterI l k i := by
  intro k
  induction k with
  | zero => intro i _; rfl
  | succ m ih =>
    intro i hi
    simp only [pIterI]
    rw [pstepI_append_lt l x i hi]
    exact ih (pstepI l i) (pstepI_lt env l inv i hi)

theorem tinv_push (env : Env) (l : List INode) (inv : TreeInv env l) (x : INode)
    (j : Nat) (hx : x.parent = some j) (hj : j < l.length)
    (hcost : (inodeAt l j).cost ≤ x.cost) (hcnn : 0 ≤ x.cost)
    (hcol : env.collision (inodeAt l j).state x.state = true ∨
            env.collision x.state (inodeAt l j).state = true) :
    TreeInv env (l ++ [x]) := by
  constructor
  · simp
  · rw [inodeAt_append_lt l x 0 inv.len_pos]
    exact inv.root_par
  · rw [inodeAt_append_lt l x 0 inv.len_pos]
    exact inv.root_cost
  · intro i hi
    by_cases hil : i < l.length
    · rw [inodeAt_append_lt l x i hil]
      exact inv.cost_nn i hil
    · have hieq : i = l.length := by simp at hi; omega
      subst hieq
      rw [inodeAt_append_self]
      exact hcnn
  · intro i hi hp
    by_cases hil : i < l.length
    · rw [inodeAt_append_lt l x i hil] at hp
      exact inv.par_none i hil hp
    · have hieq : i = l.length := by simp at hi; omega
      subst hieq
      rw [inodeAt_append_self, hx] at hp
      exact absurd hp (by simp)
  · intro i k hi hp
    by_cases hil : i < l.length
    · rw [inodeAt_append_lt l x i hil] at hp
      obtain ⟨h1, h2, h3⟩ := inv.par_edge i k hil hp
      refine ⟨by simp; omega, ?_, ?_⟩
      · rw [inodeAt_append_lt l x k h1, inodeAt_append_lt l x i hil]
        exact h2
      · rw [inodeAt_append_lt l x k h1, inodeAt_append_lt l x i hil]
        exact h3
    · have hieq : i = l.length := by simp at hi; omega
      subst hieq
      rw [inodeAt_append_self, hx] at hp
      simp only [Option.some.injEq] at hp
      subst hp
      refine ⟨by simp; omega, ?_, ?_⟩
      · rw [inodeAt_append_lt l x j hj, inodeAt_append_self]
        exact hcost
      · rw [inodeAt_append_lt l x j hj, inodeAt_append_self]
        exact hcol
  · intro i k hi hcyc
    by_cases hil : i < l.length
    · rw [pIterI_append_lt env l inv x (k + 1) i hil] at hcyc
      rw [inodeAt_append_lt l x i hil]
      exact inv.nocyc i k hil hcyc
    · have hieq : i = l.length := by simp at hi; omega
      subst hieq
      exfalso
      have hstep : pstepI (l ++ [x]) l.length = j := by
        unfold pstepI
        rw [inodeAt_append_self, hx]
      have hiter : pIterI (l ++ [x]) (k + 1) l.length = pIterI l k j := by
        simp only [pIterI]
        rw [hstep]
        exact pIterI_append_lt env l inv x k j hj
      rw [hiter] at hcyc
      have : pIterI l k j < l.length := pIterI_lt env l inv k j hj
      omega

/-! ### Invariant preservation: one rewire step -/

theorem tinv_set_rewire (env : Env) (l : List INode) (i : Nat)
    (hd : ∀ a b, 0 ≤ env.dist a b) (inv : TreeInv env l) (hil : i < l.length)
    (hlt : (inodeAt l (l.length - 1)).cost
        + env.dist (inodeAt l i).state (inodeAt l (l.length - 1)).state
      < (inodeAt l i).cost)
    (hcol : env.collision (inodeAt l (l.length - 1)).state (inodeAt l i).state = true) :
    TreeInv env
      (l.set i
        { inodeAt l i with
          parent := some (l.length - 1)
          cost := (inodeAt l (l.length - 1)).cost
            + env.dist (inodeAt l i).state (inodeAt l (l.length - 1)).state }) := by
  set b := l.length - 1 with hbdef
  set c := (inodeAt l b).cost + env.dist (inodeAt l i).state (inodeAt l b).state with hcdef
  set upd : INode :=
    { inodeAt l i with parent := some b, cost := c } with hupddef
  set l2 := l.set i upd with hl2def
  have hb : b < l.length := by omega
  have hcb : (inodeAt l b).cost ≤ c := by
    have := hd (inodeAt l i).state (inodeAt l b).state
    rw [hcdef]
    linarith
  have hcnn : 0 ≤ c := le_trans (inv.cost_nn b hb) hcb
  have hib : i ≠ b := by
    intro hh
    rw [hh] at hlt
    have := hd (inodeAt l b).state (inodeAt l b).state
    linarith
  have hi0 : i ≠ 0 := by
    intro hh
    rw [hh] at hlt
    rw [inv.root_cost] at hlt
    linarith
  have at2 : ∀ m, inodeAt l2 m = if m = i then upd else inodeAt l m := by
    intro m
    by_cases hm : m = i
    · subst hm
      rw [if_pos rfl, hl2def, inodeAt_set_self l upd m hil]
    · rw [if_neg hm, hl2def, inodeAt_set_ne l upd i m (fun hh => hm hh.symm)]
  have len2 : l2.length = l.length := by
    rw [hl2def, List.length_set]
  have st2 : ∀ m, (inodeAt l2 m).state = (inodeAt l m).state := by
    intro m
    rw [at2 m]
    by_cases hm : m = i
    · rw [if_pos hm, hupddef, hm]
    · rw [if_neg hm]
  have pstep2 : ∀ m, m ≠ i → pstepI l2 m = pstepI l m := by
    intro m hm
    unfold pstepI
    rw [at2 m, if_neg hm]
  have pstep2i : pstepI l2 i = b := by
    unfold pstepI
    rw [at2 i, if_pos rfl, hupddef]
  have avoid_i : ∀ t, pIterI l t b ≠ i := by
    intro t ht
    have h1 := pIterI_cost env l inv t b hb
    rw [ht] at h1
    have h2 := hd (inodeAt l i).state (inodeAt l b).state
    rw [hcdef] at hlt
    linarith
  have chainb : ∀ k, pIterI l2 k b = pIterI l k b ∧ pIterI l2 k b ≠ i := by
    intro k
    induction k with
    | zero => exact ⟨rfl, fun hh => hib hh.symm⟩
    | succ m ih =>
      obtain ⟨ihe, ihn⟩ := ih
      constructor
      · rw [pIterI_succ_right l2, pIterI_succ_right l, ihe, pstep2 _ (by rw [← ihe]; exact ihn)]
      · rw [pIterI_succ_right l2, ihe, pstep2 _ (by rw [← ihe]; exact ihn)]
        rw [← pIterI_succ_right l]
        exact avoid_i (m + 1)
  have chain_avoid : ∀ K m, (∀ t, t ≤ K → pIterI l2 t m ≠ i) →
      pIterI l2 K m = pIterI l K m := by
    intro K
    induction K with
    | zero => intro m _; rfl
    | succ n ih =>
      intro m hav
      have ihe := ih m (fun t ht => hav t (by omega))
      rw [pIterI_succ_right l2, pIterI_succ_right l, ihe,
        pstep2 _ (by rw [← ihe]; exact hav n (by omega))]
  constructor
  · rw [len2]; exact inv.len_pos
  · rw [at2 0, if_neg (fun hh => hi0 hh.symm)]
    exact inv.root_par
  · rw [at2 0, if_neg (fun hh => hi0 hh.symm)]
    exact inv.root_cost
  · intro m hm
    rw [len2] at hm
    rw [at2 m]
    by_cases hmi : m = i
    · rw [if_pos hmi, hupddef]
      exact hcnn
    · rw [if_neg hmi]
      exact inv.cost_nn m hm
  · intro m hm hp
    rw [len2] at hm
    rw [at2 m] at hp
    by_cases hmi : m = i
    · rw [if_pos hmi, hupddef] at hp
      exact absurd hp (by simp)
    · rw [if_neg hmi] at hp
      exact inv.par_none m hm hp
  · intro m k hm hp
    rw [len2] at hm
    rw [at2 m] at hp
    by_cases hmi : m = i
    · rw [if_pos hmi, hupddef] at hp
      simp only [Option.some.injEq] at hp
      subst hp
      refine ⟨by rw [len2]; exact hb, ?_, ?_⟩
      · rw [at2 b, if_neg (fun hh => hib hh.symm), at2 m, if_pos hmi, hupddef]
        exact hcb
      · rw [st2 b, st2 m, hmi]
        exact Or.inl hcol
    · rw [if_neg hmi] at hp
      obtain ⟨h1, h2, h3⟩ := inv.par_edge m k hm hp
      refine ⟨by rw [len2]; exact h1, ?_, ?_⟩
      · rw [at2 k, at2 m, if_neg hmi]
        by_cases hki : k = i
        · rw [if_pos hki, hupddef]
          have : (inodeAt l i).cost ≤ (inodeAt l m).cost := by
            rw [← hki]; exact h2
          simp only
          linarith
        · rw [if_neg hki]
          exact h2
      · rw [st2 k, st2 m]
        exact h3
  · intro m k hm hcyc
    rw [len2] at hm
    by_cases hmi : m = i
    · exfalso
      subst hmi
      have hh : pIterI l2 (k + 1) m = pIterI l2 k b := by
        simp only [pIterI]
        rw [pstep2i]
      rw [hh] at hcyc
      exact (chainb k).2 hcyc
    · by_cases hvis : ∃ t, t ≤ k ∧ pIterI l2 t m = i
      · exfalso
        obtain ⟨t, htk, hti⟩ := hvis
        have hrot : pIterI l2 (k + 1) i = i := by
          calc pIterI l2 (k + 1) i = pIterI l2 (k + 1) (pIterI l2 t m) := by rw [hti]
            _ = pIterI l2 t (pIterI l2 (k + 1) m) := pIterI_comm l2 (k + 1) t m
            _ = pIterI l2 t m := by rw [hcyc]
            _ = i := hti
        have hh : pIterI l2 (k + 1) i = pIterI l2 k b := by
          simp only [pIterI]
          rw [pstep2i]
        rw [hh] at hrot
        exact (chainb k).2 hrot
      · push_neg at hvis
        have hav : ∀ t, t ≤ k + 1 → pIterI l2 t m ≠ i := by
          intro t ht
          rcases Nat.lt_or_ge t (k + 1) with h | h
          · exact hvis t (by omega)
          · have hteq : t = k + 1 := by omega
            subst hteq
            rw [hcyc]
            exact hmi
        have heqc := chain_avoid (k + 1) m hav
        rw [heqc] at hcyc
        have hpar := inv.nocyc m k hm hcyc
        rw [at2 m, if_neg hmi]
        exact hpar

theorem tinv_rewireStep (env : Env) (l : List INode) (i : Nat)
    (hd : ∀ a b, 0 ≤ env.dist a b) (inv : TreeInv env l) :
    TreeInv env (rewireStep env l i) := by
  unfold rewireStep
  by_cases hil : i < l.length
  · rw [if_pos hil]
    by_cases hg : (inodeAt l (l.length - 1)).cost
          + env.dist (inodeAt l i).state (inodeAt l (l.length - 1)).state
        < (inodeAt l i).cost
      ∧ env.collision (inodeAt l (l.length - 1)).state (inodeAt l i).state = true
    · rw [if_pos hg]
      exact tinv_set_rewire env l i hd inv hil hg.1 hg.2
    · rw [if_neg hg]
      exact inv
  · rw [if_neg hil]
    exact inv

theorem tinv_rewire_fold (env : Env) (hd : ∀ a b, 0 ≤ env.dist a b) :
    ∀ (near : List Nat) (l : List INode), TreeInv env l →
      TreeInv env (near.foldl (rewireStep env) l) := by
  intro near
  induction near with
  | nil => intro l inv; exact inv
  | cons a as ih =>
    intro l inv
    exact ih (rewireStep env l a) (tinv_rewireStep env l a hd inv)

theorem rewireStep_length (env : Env) (l : List INode) (i : Nat) :
    (rewireStep env l i).length = l.length := by
  simp only [rewireStep]
  split
  · split
    · rw [List.length_set]
    · rfl
  · rfl

theorem rewireStep_state (env : Env) (l : List INode) (i : Nat) :
    ∀ m, (inodeAt (rewireStep env l i) m).state = (inodeAt l m).state := by
  intro m
  simp only [rewireStep]
  split
  · next hil =>
    split
    · by_cases hm : m = i
      · subst hm
        rw [inodeAt_set_self l _ m hil]
      · rw [inodeAt_set_ne l _ i m (fun hh => hm hh.symm)]
    · rfl
  · rfl

theorem rewire_fold_state (env : Env) :
    ∀ (near : List Nat) (l : List INode) (m : Nat),
      (inodeAt (near.foldl (rewireStep env) l) m).state = (inodeAt l m).state := by
  intro near
  induction near with
  | nil => intro l m; rfl
  | cons a as ih =>
    intro l m
    simp only [List.foldl_cons]
    rw [ih (rewireStep env l a) m, rewireStep_state]

/-! ### Facts about chooseParentNode and findNearNodes needed by the loop -/

theorem chooseParent_cases (env : Env) (tgt : INode) (l : List INode) (near : List Nat) :
    InformedRRTStar.chooseParentNode env tgt l near = tgt ∨
    ∃ i, i ∈ near ∧ env.collision tgt.state (inodeAt l i).state = true ∧
      InformedRRTStar.chooseParentNode env tgt l near
        = { tgt with parent := some i, cost := cpCost env tgt l i } := by
  simp only [InformedRRTStar.chooseParentNode]
  rw [cpLoop_eq, passBelow_none]
  cases hm : minCostIdx env tgt l (passList env tgt l near) with
  | none => exact Or.inl rfl
  | some p =>
    obtain ⟨i, c⟩ := p
    obtain ⟨hmem, hc, -⟩ := minCostIdx_spec env tgt l _ i c hm
    obtain ⟨hnear, hcol⟩ := List.mem_filter.mp hmem
    refine Or.inr ⟨i, hnear, by simpa using hcol, ?_⟩
    rw [hc]

theorem findNear_lt (env : Env) (l : List INode) (t : INode) :
    ∀ i ∈ InformedRRTStar.findNearNodes env l t, i < l.length := by
  intro i hi
  unfold InformedRRTStar.findNearNodes at hi
  split at hi
  · exact absurd hi (List.not_mem_nil i)
  · have := (List.mem_filter.mp hi).1
    exact List.mem_range.mp this

/-! ### Invariant preservation across the Informed RRT* solve loop -/

theorem irrt_loop_inv (env : Env) (rate expand : ℚ) (goal : State)
    (hd : ∀ a b, 0 ≤ env.dist a b) (he : 0 ≤ expand) :
    ∀ (fuel : Nat) (draws : List Draw) (l L : List INode),
      InformedRRTStar.solveLoop env rate expand goal fuel draws l = some L →
      TreeInv env l →
      TreeInv env L ∧ (inodeAt L 0).state = (inodeAt l 0).state := by
  intro fuel
  induction fuel with
  | zero =>
    intro draws l L h inv
    simp only [InformedRRTStar.solveLoop, Option.some.injEq] at h
    subst h
    exact ⟨inv, rfl⟩
  | succ f ih =>
    intro draws l L h inv
    cases draws with
    | nil => exact absurd h (by simp [InformedRRTStar.solveLoop])
    | cons d ds =>
      simp only [InformedRRTStar.solveLoop] at h
      by_cases hskip : rate < d.u ∧ env.noentry d.pt = true
      · rw [if_pos hskip] at h
        exact ih ds l L h inv
      · rw [if_neg hskip] at h
        set tgt := (if rate < d.u then d.pt else goal) with htgt
        set ni := InformedRRTStar.getNearestNodeIndex env tgt l with hni
        set nn := InformedRRTStar.generateSteerNode env expand (inodeAt l ni) ni tgt
          with hnn
        by_cases hcol : env.collision (inodeAt l ni).state nn.state = true
        · rw [if_pos hcol] at h
          set near := InformedRRTStar.findNearNodes env l nn with hnear
          set nn2 := InformedRRTStar.chooseParentNode env nn l near with hnn2
          have hni_lt : ni < l.length := by
            rw [hni]
            exact irrt_nearest_lt env tgt l inv.len_pos
          have hnn_par : nn.parent = some ni := by
            rw [hnn]
            unfold InformedRRTStar.generateSteerNode
            split <;> rfl
          have hnn_cost : (inodeAt l ni).cost ≤ nn.cost := by
            rw [hnn]
            unfold InformedRRTStar.generateSteerNode
            split
            · simp only
              have := hd (inodeAt l ni).state tgt
              linarith
            · simp only
              linarith
          have inv2 : TreeInv env (l ++ [nn2]) := by
            rcases chooseParent_cases env nn l near with hcase | ⟨j, hjnear, hjcol, hcase⟩
            · rw [hnn2, hcase]
              exact tinv_push env l inv nn ni hnn_par hni_lt hnn_cost
                (le_trans (inv.cost_nn ni hni_lt) hnn_cost) (Or.inl hcol)
            · rw [hnn2, hcase]
              have hj_lt : j < l.length := findNear_lt env l nn j hjnear
              have hcost2 : (inodeAt l j).cost ≤ cpCost env nn l j := by
                unfold cpCost
                have := hd nn.state (inodeAt l j).state
                linarith
              refine tinv_push env l inv _ j rfl hj_lt hcost2
                (le_trans (inv.cost_nn j hj_lt) hcost2) (Or.inr ?_)
              simpa using hjcol
          have inv3 : TreeInv env
              (InformedRRTStar.rewireNearNodes env (l ++ [nn2]) near) :=
            tinv_rewire_fold env hd near (l ++ [nn2]) inv2
          obtain ⟨hI, hS⟩ := ih ds _ L h inv3
          refine ⟨hI, ?_⟩
          rw [hS]
          show (inodeAt (near.foldl (rewireStep env) (l ++ [nn2])) 0).state
            = (inodeAt l 0).state
          rw [rewire_fold_state env near (l ++ [nn2]) 0,
            inodeAt_append_lt l nn2 0 inv.len_pos]
        · rw [if_neg hcol] at h
          exact ih ds l L h inv

/-! ### Best-node selection bound and walks in an Informed tree -/

theorem bestGo_cases (env : Env) (t : State) (radius : ℚ) :
    ∀ (ns : List INode) (i : Nat) (bi : Option Nat) (bc : Option ℚ),
      bestGo env t radius ns i bi bc = bi ∨
        ∃ k, k < ns.length ∧ bestGo env t radius ns i bi bc = some (i + k) := by
  intro ns
  induction ns with
  | nil => intro i bi bc; exact Or.inl rfl
  | cons n rest ih =>
    intro i bi bc
    cases bc with
    | none =>
      simp only [bestGo]
      by_cases hin : env.dist t n.state < radius
      · rw [if_pos hin]
        rcases ih (i + 1) (some i) (some n.cost) with h | ⟨k, hk, h⟩
        · exact Or.inr ⟨0, by simp, by rw [h, Nat.add_zero]⟩
        · exact Or.inr ⟨k + 1, by simp; omega, by rw [h]; congr 1; omega⟩
      · rw [if_neg hin]
        rcases ih (i + 1) bi none with h | ⟨k, hk, h⟩
        · exact Or.inl h
        · exact Or.inr ⟨k + 1, by simp; omega, by rw [h]; congr 1; omega⟩
    | some m =>
      simp only [bestGo]
      by_cases hin : env.dist t n.state < radius
      · rw [if_pos hin]
        by_cases hcl : n.cost < m
        · rw [if_pos hcl]
          rcases ih (i + 1) (some i) (some n.cost) with h | ⟨k, hk, h⟩
          · exact Or.inr ⟨0, by simp, by rw [h, Nat.add_zero]⟩
          · exact Or.inr ⟨k + 1, by simp; omega, by rw [h]; congr 1; omega⟩
        · rw [if_neg hcl]
          rcases ih (i + 1) bi (some m) with h | ⟨k, hk, h⟩
          · exact Or.inl h
          · exact Or.inr ⟨k + 1, by simp; omega, by rw [h]; congr 1; omega⟩
      · rw [if_neg hin]
        rcases ih (i + 1) bi (some m) with h | ⟨k, hk, h⟩
        · exact Or.inl h
        · exact Or.inr ⟨k + 1, by simp; omega, by rw [h]; congr 1; omega⟩

theorem getBest_lt (env : Env) (t : State) (radius : ℚ) (l : List INode) (b : Nat)
    (h : InformedRRTStar.getBestNodeIndex env t radius l = some b) : b < l.length := by
  unfold InformedRRTStar.getBestNodeIndex at h
  rcases bestGo_cases env t radius l 0 none none with h2 | ⟨k, hk, h2⟩
  · rw [h2] at h
    exact absurd h (by simp)
  · rw [h2] at h
    simp only [Option.some.injEq] at h
    omega

theorem iwalk_props (env : Env) (l : List INode) (inv : TreeInv env l) :
    ∀ t i, i < l.length → pIterI l t i = 0 → ∀ fuel, t < fuel →
      iwalkRev l fuel i ≠ [] ∧
      (iwalkRev l fuel i).head? = some (inodeAt l i).state ∧
      (iwalkRev l fuel i).getLast? = some (inodeAt l 0).state ∧
      List.Chain'
        (fun a b => env.collision b a = true ∨ env.collision a b = true)
        (iwalkRev l fuel i) := by
  intro t
  induction t with
  | zero =>
    intro i hi h0 fuel hf
    have hi0 : i = 0 := h0
    subst hi0
    obtain ⟨f, rfl⟩ : ∃ f, fuel = f + 1 := ⟨fuel - 1, by omega⟩
    simp only [iwalkRev]
    rw [inv.root_par]
    exact ⟨by simp, rfl, by simp, List.chain'_singleton _⟩
  | succ k ihk =>
    intro i hi ht fuel hf
    obtain ⟨f, rfl⟩ : ∃ f, fuel = f + 1 := ⟨fuel - 1, by omega⟩
    cases hp : (inodeAt l i).parent with
    | none =>
      have hi0 : i = 0 := inv.par_none i hi hp
      subst hi0
      simp only [iwalkRev]
      rw [hp]
      exact ⟨by simp, rfl, by simp, List.chain'_singleton _⟩
    | some j =>
      obtain ⟨hjl, -, hcol⟩ := inv.par_edge i j hi hp
      have hstep : pstepI l i = j := by
        unfold pstepI
        rw [hp]
      have htj : pIterI l k j = 0 := by
        have : pIterI l (k + 1) i = pIterI l k (pstepI l i) := rfl
        rw [this, hstep] at ht
        exact ht
      have hjf : k < f := by omega
      obtain ⟨hne, hhead, hlast, hchain⟩ := ihk j hjl htj f hjf
      simp only [iwalkRev]
      rw [hp]
      refine ⟨by simp, rfl, ?_, ?_⟩
      · rw [getLast?_cons_of_ne_nil _ _ hne]
        exact hlast
      · refine List.chain'_cons'.mpr ⟨?_, hchain⟩
        intro y hy
        rw [hhead] at hy
        simp only [Option.mem_def, Option.some.injEq] at hy
        subst hy
        exact hcol

/-! ### Shape of the InformedRRTStar solve result -/

theorem irrt_solve_shape (env : Env) (rate expand : ℚ) (maxN : Nat)
    (start goal : State) (draws : List Draw) (b : Bool) (res : List State)
    (nodes : List INode)
    (h : InformedRRTStar.solve env rate expand maxN start goal draws
      = .ok (some (b, res, nodes))) :
    InformedRRTStar.solveLoop env rate expand goal maxN draws [⟨start, none, 0⟩]
        = some nodes ∧
      ((b = false ∧ res = []) ∨
       (b = true ∧ ∃ bb,
         InformedRRTStar.getBestNodeIndex env goal expand nodes = some bb ∧
         res = (if (inodeAt nodes bb).state = goal
                then (iwalkRev nodes nodes.length bb).reverse
                else (iwalkRev nodes nodes.length bb).reverse ++ [goal]))) := by
  unfold InformedRRTStar.solve at h
  by_cases hdim : start.length ≠ goal.length ∨ start.length < 2
  · rw [if_pos hdim] at h
    exact absurd h (by simp)
  · rw [if_neg hdim] at h
    cases hr : InformedRRTStar.solveLoop env rate expand goal maxN draws
        [⟨start, none, 0⟩] with
    | none => rw [hr] at h; exact absurd h (by simp)
    | some L =>
      rw [hr] at h
      simp only [Option.map_some', Except.ok.injEq, Option.some.injEq] at h
      cases hbest : InformedRRTStar.getBestNodeIndex env goal expand L with
      | none =>
        simp only [hbest, Prod.mk.injEq] at h
        obtain ⟨hb, hres, hnodes⟩ := h
        subst hb hres hnodes
        exact ⟨rfl, Or.inl ⟨rfl, rfl⟩⟩
      | some bb =>
        simp only [hbest] at h
        by_cases hg : (inodeAt L bb).state = goal
        · rw [if_pos hg] at h
          simp only [Prod.mk.injEq] at h
          obtain ⟨hb, hres, hnodes⟩ := h
          subst hb hnodes
          refine ⟨rfl, Or.inr ⟨rfl, bb, hbest, ?_⟩⟩
          rw [if_pos hg]
          exact hres.symm
        · rw [if_neg hg] at h
          simp only [Prod.mk.injEq] at h
          obtain ⟨hb, hres, hnodes⟩ := h
          subst hb hnodes
          refine ⟨rfl, Or.inr ⟨rfl, bb, hbest, ?_⟩⟩
          rw [if_neg hg]
          exact hres.symm

/-! ### Initial trees satisfy the invariants -/

theorem tinv_init (env : Env) (start : State) :
    TreeInv env [⟨start, none, 0⟩] := by
  constructor
  · simp
  · rfl
  · rfl
  · intro i hi
    have : i = 0 := by simp at hi; omega
    subst this
    exact le_refl _
  · intro i hi _
    simp at hi
    omega
  · intro i j hi hp
    have : i = 0 := by simp at hi; omega
    subst this
    exact absurd hp (by simp [inodeAt])
  · intro i k hi _
    have : i = 0 := by simp at hi; omega
    subst this
    rfl

theorem rinv_init (env : Env) (start : State) :
    RInv env [⟨start, none⟩] := by
  constructor
  · simp
  · rfl
  · intro i hi _
    simp at hi
    omega
  · intro i j hi hp
    have : i = 0 := by simp at hi; omega
    subst this
    exact absurd hp (by simp [rnodeAt])

/-! ### C9: the node list after an Informed RRT* solve is a tree -/

/-- C9: after any `InformedRRTStar::solve` call that returns (any draw
stream, success or failure), the stored node list has exactly one
parentless node — the root at index 0 — and following parent links from
any node reaches the root within `N` steps, where `N` is the node count;
the invariant survives the whole sequence of `chooseParentNode` and
`rewireNearNodes` mutations performed by the loop.  Distance
nonnegativity and a nonnegative `expand_dist` are assumed, as for the
Euclidean metric of the source. -/
theorem c9_tree_invariant (env : Env) (rate expand : ℚ) (maxN : Nat)
    (start goal : State) (draws : List Draw)
    (hd : ∀ a b, 0 ≤ env.dist a b) (he : 0 ≤ expand)
    (b : Bool) (res : List State) (nodes : List INode)
    (h : InformedRRTStar.solve env rate expand maxN start goal draws
      = .ok (some (b, res, nodes))) :
    (∀ i, i < nodes.length → ((inodeAt nodes i).parent = none ↔ i = 0)) ∧
    (∀ i, i < nodes.length → pIterI nodes nodes.length i = 0) := by
  obtain ⟨hloop, -⟩ :=
    irrt_solve_shape env rate expand maxN start goal draws b res nodes h
  obtain ⟨invL, -⟩ := irrt_loop_inv env rate expand goal hd he maxN draws
    [⟨start, none, 0⟩] nodes hloop (tinv_init env start)
  constructor
  · intro i hi
    constructor
    · exact invL.par_none i hi
    · intro h0
      subst h0
      exact invL.root_par
  · exact treeInv_reach_full env nodes invL

/-- Evaluation of a concrete successful `InformedRRTStar::solve` run
used by several witnesses. -/
theorem irrt_succ_run_eval :
    InformedRRTStar.solve envT 1 2 1 [0, 0] [1, 0] [⟨0, [0, 0]⟩]
      = .ok (some (true, [[0, 0], [1, 0]],
          [⟨[0, 0], none, 0⟩, ⟨[1, 0], some 0, 1⟩])) := by
  norm_num [InformedRRTStar.solve, InformedRRTStar.solveLoop,
    InformedRRTStar.getNearestNodeIndex, InformedRRTStar.generateSteerNode,
    InformedRRTStar.findNearNodes, InformedRRTStar.chooseParentNode,
    InformedRRTStar.rewireNearNodes, InformedRRTStar.getBestNodeIndex,
    bestGo, cpLoop, cpCost, cLess, rewireStep, iwalkRev, nearestGo, inodeAt,
    qdist, envT, List.range_succ]

/-- C9 witness: the invariant theorem applied to the concrete successful
run, projected at node 1 — two parent steps land on the root. -/
theorem c9_witness :
    pIterI [⟨[0, 0], none, 0⟩, ⟨[1, 0], some 0, 1⟩] 2 1 = 0 :=
  (c9_tree_invariant envT 1 2 1 [0, 0] [1, 0] [⟨0, [0, 0]⟩]
    (fun a b => qdist_nonneg a b) (by norm_num) true [[0, 0], [1, 0]]
    [⟨[0, 0], none, 0⟩, ⟨[1, 0], some 0, 1⟩] irrt_succ_run_eval).2 1 (by norm_num)

/-! ### C4: path endpoints -/

/-- C4: every successful solve of either planner produces a non-empty
result path whose first state is the start argument and whose last state
is the goal argument. -/
theorem c4_path_endpoints (env : Env) (rate expand : ℚ) (maxN : Nat)
    (start goal : State) (draws : List Draw) (prev : List State)
    (hd : ∀ a b, 0 ≤ env.dist a b) (he : 0 ≤ expand) :
    (∀ res, RRT.solve env rate expand maxN start goal draws prev = some (true, res) →
      res ≠ [] ∧ res.head? = some start ∧ res.getLast? = some goal) ∧
    (∀ res nodes,
      InformedRRTStar.solve env rate expand maxN start goal draws
        = .ok (some (true, res, nodes)) →
      res ≠ [] ∧ res.head? = some start ∧ res.getLast? = some goal) := by
  constructor
  · intro res h
    unfold RRT.solve at h
    cases hr : RRT.solveLoop env rate expand goal maxN draws [⟨start, none⟩] 0 with
    | none => rw [hr] at h; exact absurd h (by simp)
    | some p =>
      obtain ⟨bb, L, c⟩ := p
      rw [hr] at h
      cases bb with
      | false => simp at h
      | true =>
        simp only [Option.some.injEq, Prod.mk.injEq] at h
        obtain ⟨-, hres⟩ := h
        obtain ⟨l2, hL, inv2, -, hroot⟩ :=
          rrt_loop_success env rate expand goal maxN draws [⟨start, none⟩] 0 L c hr
            (rinv_init env start)
        have hroot_state : (rnodeAt l2 0).state = start := by rw [hroot]; rfl
        have hlen2 : 0 < l2.length := inv2.len_pos
        have hLlen : L.length = l2.length + 1 := by rw [hL]; simp
        have hwalk : rwalkRev L L.length (L.length - 1)
            = goal :: rwalkRev l2 l2.length (l2.length - 1) := by
          rw [hLlen]
          have h1 : l2.length + 1 - 1 = l2.length := by omega
          rw [h1]
          have h2 : rnodeAt L l2.length = ⟨goal, some (l2.length - 1)⟩ := by
            rw [hL]
            exact rnodeAt_append_self l2 _
          simp only [rwalkRev, h2]
          rw [hL, rwalk_append env l2 inv2 _ l2.length (l2.length - 1) (by omega)]
        obtain ⟨hne, hhead, hlast, hchain⟩ :=
          rwalk_props env l2 inv2 (l2.length - 1) (by omega) l2.length (by omega)
        have hres2 : res = (rwalkRev l2 l2.length (l2.length - 1)).reverse ++ [goal] := by
          rw [← hres, hwalk, List.reverse_cons]
        refine ⟨by rw [hres2]; simp, ?_, ?_⟩
        · rw [hres2]
          have h3 : ((rwalkRev l2 l2.length (l2.length - 1)).reverse ++ [goal]).head?
              = (rwalkRev l2 l2.length (l2.length - 1)).reverse.head? := by
            cases hWr : (rwalkRev l2 l2.length (l2.length - 1)).reverse with
            | nil => exact absurd hWr (by simpa using hne)
            | cons a t => rfl
          rw [h3, List.head?_reverse, hlast, hroot_state]
        · rw [hres2, List.getLast?_concat]
  · intro res nodes h
    obtain ⟨hloop, hshape⟩ :=
      irrt_solve_shape env rate expand maxN start goal draws true res nodes h
    rcases hshape with ⟨hb, -⟩ | ⟨-, bb, hbest, hres⟩
    · exact absurd hb (by simp)
    · obtain ⟨invL, hS⟩ := irrt_loop_inv env rate expand goal hd he maxN draws
        [⟨start, none, 0⟩] nodes hloop (tinv_init env start)
      have hroot_state : (inodeAt nodes 0).state = start := by rw [hS]; rfl
      have hbb : bb < nodes.length := getBest_lt env goal expand nodes bb hbest
      obtain ⟨t, ht, h0⟩ := treeInv_reach env nodes invL bb hbb
      obtain ⟨hne, hhead, hlast, hchain⟩ :=
        iwalk_props env nodes invL t bb hbb h0 nodes.length ht
      by_cases hg : (inodeAt nodes bb).state = goal
      · rw [if_pos hg] at hres
        refine ⟨by rw [hres]; simpa using hne, ?_, ?_⟩
        · rw [hres, List.head?_reverse, hlast, hroot_state]
        · rw [hres, List.getLast?_reverse, hhead, hg]
      · rw [if_neg hg] at hres
        refine ⟨by rw [hres]; simp, ?_, ?_⟩
        · rw [hres]
          have h3 : ((iwalkRev nodes nodes.length bb).reverse ++ [goal]).head?
              = (iwalkRev nodes nodes.length bb).reverse.head? := by
            cases hWr : (iwalkRev nodes nodes.length bb).reverse with
            | nil => exact absurd hWr (by simpa using hne)
            | cons a tl => rfl
          rw [h3, List.head?_reverse, hlast, hroot_state]
        · rw [hres, List.getLast?_concat]

/-- Evaluation of a concrete successful `RRT::solve` run used by
witnesses. -/
theorem rrt_succ_run_eval :
    RRT.solve envT 1 1 5 [0, 0] [2, 0] [⟨0, [9, 9]⟩] []
      = some (true, [[0, 0], [2, 0], [2, 0]]) := by
  norm_num [RRT.solve, RRT.solveLoop, RRT.getNearestNodeIndex,
    RRT.generateSteerNode, nearestGo, rnodeAt, rwalkRev, qdist, envT]

/-- C4 witness: the endpoint theorem applied to the two concrete
successful runs. -/
theorem c4_witness :
    (([[0, 0], [2, 0], [2, 0]] : List State).head? = some [0, 0] ∧
     ([[0, 0], [2, 0], [2, 0]] : List State).getLast? = some [2, 0]) ∧
    (([[0, 0], [1, 0]] : List State).head? = some [0, 0] ∧
     ([[0, 0], [1, 0]] : List State).getLast? = some [1, 0]) := by
  have h1 := (c4_path_endpoints envT 1 1 5 [0, 0] [2, 0] [⟨0, [9, 9]⟩] []
    (fun a b => qdist_nonneg a b) (by norm_num)).1 [[0, 0], [2, 0], [2, 0]]
    rrt_succ_run_eval
  have h2 := (c4_path_endpoints envT 1 2 1 [0, 0] [1, 0] [⟨0, [0, 0]⟩] []
    (fun a b => qdist_nonneg a b) (by norm_num)).2 [[0, 0], [1, 0]]
    [⟨[0, 0], none, 0⟩, ⟨[1, 0], some 0, 1⟩] irrt_succ_run_eval
  exact ⟨⟨h1.2.1, h1.2.2⟩, ⟨h2.2.1, h2.2.2⟩⟩

/-! ### C1: segment feasibility of the result path -/

/-- Environment in which every segment is feasible except the one from
`[1,0]` to `[2,0]`, and steering always lands on `[1,0]`. -/
def envC1 : Env where
  dist := qdist
  collision := fun a b => !(decide (a = [1, 0]) && decide (b = [2, 0]))
  noentry := fun _ => false
  steerMove := fun _ _ _ => [1, 0]
  nearRadius := fun _ => 0

/-- C1 counterexample: a successful `RRT::solve` whose final segment —
from the last tree node `[1,0]` to the appended goal `[2,0]` — fails
`checkCollision`: the goal node is appended after a mere distance test
(RRT.cpp line 106) with no collision check of that segment. -/
theorem c1_counterexample :
    RRT.solve envC1 1 1 5 [0, 0] [2, 0] [⟨0, [9, 9]⟩] []
      = some (true, [[0, 0], [1, 0], [2, 0]]) ∧
    envC1.collision [1, 0] [2, 0] = false := by
  constructor
  · norm_num [RRT.solve, RRT.solveLoop, RRT.getNearestNodeIndex,
      RRT.generateSteerNode, nearestGo, rnodeAt, rwalkRev, qdist, envC1]
  · decide

/-- C1 (amended): on every successful solve of either planner, every
pair of consecutive states in the result path except possibly the final
pair (the segment ending at the appended goal, which is only
distance-checked) is segment-feasible, `checkCollision` being assumed
symmetric as for a geometric segment test (`chooseParentNode` checks
some tree edges in child-to-parent order). -/
theorem c1_path_feasibility (env : Env) (rate expand : ℚ) (maxN : Nat)
    (start goal : State) (draws : List Draw) (prev : List State)
    (hsymm : ∀ a b, env.collision a b = env.collision b a)
    (hd : ∀ a b, 0 ≤ env.dist a b) (he : 0 ≤ expand) :
    (∀ res, RRT.solve env rate expand maxN start goal draws prev = some (true, res) →
      List.Chain' (fun a b => env.collision a b = true) res.dropLast) ∧
    (∀ res nodes,
      InformedRRTStar.solve env rate expand maxN start goal draws
        = .ok (some (true, res, nodes)) →
      List.Chain' (fun a b => env.collision a b = true) res.dropLast) := by
  constructor
  · intro res h
    unfold RRT.solve at h
    cases hr : RRT.solveLoop env rate expand goal maxN draws [⟨start, none⟩] 0 with
    | none => rw [hr] at h; exact absurd h (by simp)
    | some p =>
      obtain ⟨bb, L, c⟩ := p
      rw [hr] at h
      cases bb with
      | false => simp at h
      | true =>
        simp only [Option.some.injEq, Prod.mk.injEq] at h
        obtain ⟨-, hres⟩ := h
        obtain ⟨l2, hL, inv2, -, -⟩ :=
          rrt_loop_success env rate expand goal maxN draws [⟨start, none⟩] 0 L c hr
            (rinv_init env start)
        have hlen2 : 0 < l2.length := inv2.len_pos
        have hLlen : L.length = l2.length + 1 := by rw [hL]; simp
        have hwalk : rwalkRev L L.length (L.length - 1)
            = goal :: rwalkRev l2 l2.length (l2.length - 1) := by
          rw [hLlen]
          have h1 : l2.length + 1 - 1 = l2.length := by omega
          rw [h1]
          have h2 : rnodeAt L l2.length = ⟨goal, some (l2.length - 1)⟩ := by
            rw [hL]
            exact rnodeAt_append_self l2 _
          simp only [rwalkRev, h2]
          rw [hL, rwalk_append env l2 inv2 _ l2.length (l2.length - 1) (by omega)]
        obtain ⟨-, -, -, hchain⟩ :=
          rwalk_props env l2 inv2 (l2.length - 1) (by omega) l2.length (by omega)
        have hres2 : res = (rwalkRev l2 l2.length (l2.length - 1)).reverse ++ [goal] := by
          rw [← hres, hwalk, List.reverse_cons]
        rw [hres2, List.dropLast_concat]
        exact List.chain'_reverse.mpr hchain
  · intro res nodes h
    obtain ⟨hloop, hshape⟩ :=
      irrt_solve_shape env rate expand maxN start goal draws true res nodes h
    rcases hshape with ⟨hb, -⟩ | ⟨-, bb, hbest, hres⟩
    · exact absurd hb (by simp)
    · obtain ⟨invL, -⟩ := irrt_loop_inv env rate expand goal hd he maxN draws
        [⟨start, none, 0⟩] nodes hloop (tinv_init env start)
      have hbb : bb < nodes.length := getBest_lt env goal expand nodes bb hbest
      obtain ⟨t, ht, h0⟩ := treeInv_reach env nodes invL bb hbb
      obtain ⟨-, -, -, hchain⟩ :=
        iwalk_props env nodes invL t bb hbb h0 nodes.length ht
      have hchain2 : List.Chain' (fun a b => env.collision b a = true)
          (iwalkRev nodes nodes.length bb) := by
        refine hchain.imp ?_
        intro a b hab
        rcases hab with hh | hh
        · exact hh
        · rw [hsymm]
          exact hh
      have hrev : List.Chain' (fun a b => env.collision a b = true)
          (iwalkRev nodes nodes.length bb).reverse :=
        List.chain'_reverse.mpr hchain2
      by_cases hg : (inodeAt nodes bb).state = goal
      · rw [if_pos hg] at hres
        rw [hres]
        have hpre := List.dropLast_prefix (iwalkRev nodes nodes.length bb).reverse
        exact List.Chain'.prefix hrev hpre
      · rw [if_neg hg] at hres
        rw [hres, List.dropLast_concat]
        exact hrev

/-- C1 witness: the amended theorem applied to the two concrete
successful runs of the all-feasible environment. -/
theorem c1_witness :
    List.Chain' (fun a b => envT.collision a b = true)
      ([[0, 0], [2, 0], [2, 0]] : List State).dropLast ∧
    List.Chain' (fun a b => envT.collision a b = true)
      ([[0, 0], [1, 0]] : List State).dropLast :=
  ⟨(c1_path_feasibility envT 1 1 5 [0, 0] [2, 0] [⟨0, [9, 9]⟩] []
      (fun _ _ => rfl) (fun a b => qdist_nonneg a b) (by norm_num)).1
      [[0, 0], [2, 0], [2, 0]] rrt_succ_run_eval,
   (c1_path_feasibility envT 1 2 1 [0, 0] [1, 0] [⟨0, [0, 0]⟩] []
      (fun _ _ => rfl) (fun a b => qdist_nonneg a b) (by norm_num)).2
      [[0, 0], [1, 0]] [⟨[0, 0], none, 0⟩, ⟨[1, 0], some 0, 1⟩] irrt_succ_run_eval⟩
